import Mathlib

/-! # Crossref works harvester and OpenAlex author matcher

A shallow embedding of `src/jurnal/crossref/main.js` and of the name normaliser of
`src/author/openalex/match-author-openalex.js`.

Modelling conventions.

* A JavaScript string is the list of its characters (`Str`).
* `toLowerCase` is modelled on the ASCII letters `A`-`Z`; every other character is left
  unchanged (the Unicode case tables are not part of the model).
* `\s` and `trim` use the exact ECMAScript white-space set (`isSpace`).
* A regular expression is embedded as the list function that computes its match on the
  subject string; each such definition quotes the expression it stands for.
* Loops whose termination is not structural carry a fuel argument and return `none` when
  the fuel runs out; the theorems show that the fuel the definitions supply is enough.
-/

/-- A JavaScript string. -/
abbrev Str := List Char

/-- The class `\s` of an ECMAScript regular expression; `trim` removes the same characters. -/
def isSpace (c : Char) : Bool :=
  c.toNat == 9 || c.toNat == 10 || c.toNat == 11 || c.toNat == 12 || c.toNat == 13 ||
  c.toNat == 32 || c.toNat == 160 || c.toNat == 5760 ||
  (8192 ≤ c.toNat && c.toNat ≤ 8202) || c.toNat == 8232 || c.toNat == 8233 ||
  c.toNat == 8239 || c.toNat == 8287 || c.toNat == 12288 || c.toNat == 65279

/-- The line terminators, which `.` of a regular expression does not match. -/
def isLineTerminator (c : Char) : Bool :=
  c.toNat == 10 || c.toNat == 13 || c.toNat == 8232 || c.toNat == 8233

/-- The method `toLowerCase` (ASCII letters; other characters unchanged). -/
def toLowerCase (s : Str) : Str := s.map Char.toLower

/-- Body of `replace(/\s+/g, " ")`: the flag tells whether the previous character was
white space, in which case the run has already been replaced. -/
def collapseAux : Bool → Str → Str
  | _, [] => []
  | inRun, c :: cs =>
    if isSpace c then
      if inRun then collapseAux true cs else ' ' :: collapseAux true cs
    else c :: collapseAux false cs

/-- The call `s.replace(/\s+/g, " ")`: every maximal white-space run becomes one space. -/
def collapseSpaces (s : Str) : Str := collapseAux false s

/-- The method `trim`. -/
def trim (s : Str) : Str :=
  (((s.dropWhile isSpace).reverse).dropWhile isSpace).reverse

/-- No two adjacent white-space characters, every white-space character is a space, and
neither end is white space: the form that the final clean-up of a name produces. -/
def Tidy (l : Str) : Prop :=
  List.Chain' (fun a b => ¬(isSpace a = true ∧ isSpace b = true)) l ∧
  (∀ c ∈ l, isSpace c = true → c = ' ') ∧
  (∀ c ∈ l.head?, isSpace c = false) ∧ (∀ c ∈ l.getLast?, isSpace c = false)

/-- The expression `x || ""` for a string-valued JSON field that may be absent. -/
def orEmpty (x : Option Str) : Str := x.getD []

/-- The method `includes`: `pat` occurs in `s` as a contiguous substring. -/
def includes (s pat : Str) : Bool := s.tails.any (fun t => pat.isPrefixOf t)

/-- An affiliation entry of a Crossref author. -/
structure Affiliation where
  name : Option Str
deriving DecidableEq, Repr

/-- An entry of the `author` array of a Crossref work. -/
structure Author where
  given : Option Str
  family : Option Str
  affiliation : Option (List Affiliation) := none
deriving DecidableEq, Repr

/-- The template literal `${a.given || ""} ${a.family || ""}`. -/
def fullNameOf (a : Author) : Str := orEmpty a.given ++ ' ' :: orEmpty a.family

/-- The object holding a `date-parts` array (`published-print`, `published-online`);
an array element that is `null` is `none`. -/
structure DateField where
  dateParts : Option (List (List (Option Nat)))
deriving DecidableEq, Repr

/-- The field `indexed` of a work. -/
structure Indexed where
  dateTime : Option Str
  dateParts : Option (List (List (Option Nat)))
deriving DecidableEq, Repr

/-- An entry of the `link` array. -/
structure Link where
  contentType : Option Str
  URL : Option Str
deriving DecidableEq, Repr

/-- An entry of the `issn-type` array. -/
structure IssnType where
  value : Option Str
  type : Option Str
deriving DecidableEq, Repr

/-- A Crossref work, with the fields the harvester reads.  `score` holds the text
`String(work.score)` of a present, non-zero score. -/
structure Work where
  author : Option (List Author) := none
  DOI : Option Str := none
  title : Option (List Str) := none
  containerTitle : Option (List Str) := none
  shortContainerTitle : Option (List Str) := none
  publisher : Option Str := none
  issue : Option Str := none
  volume : Option Str := none
  page : Option Str := none
  publishedPrint : Option DateField := none
  publishedOnline : Option DateField := none
  type : Option Str := none
  source : Option Str := none
  link : Option (List Link) := none
  abstract : Option Str := none
  score : Option Str := none
  ISSN : Option (List Str) := none
  issnType : Option (List IssnType) := none
  indexed : Option Indexed := none
  URL : Option Str := none
deriving DecidableEq, Repr

namespace Crossref

/-- The constant `FILTER_UNIKOM`. -/
def FILTER_UNIKOM : Bool := false

/-- The function `normalizeName` of `crossref/main.js`:
`name.toLowerCase().replace(/[^a-z\s]/g, "").replace(/\s+/g, " ").trim()`. -/
def normalizeName (name : Str) : Str :=
  trim (collapseSpaces
    ((toLowerCase name).filter (fun c => ('a' ≤ c && c ≤ 'z') || isSpace c)))

/-- The function `isExactAuthorMatch`: some entry of `work.author || []` has the
normalised full name of the queried author. -/
def isExactAuthorMatch (work : Work) (queryAuthor : Str) : Bool :=
  let target := normalizeName queryAuthor
  (work.author.getD []).any (fun a =>
    let fullName := normalizeName (fullNameOf a)
    fullName == target)

/-- The function `isExactAuthorFromUNIKOM`. -/
def isExactAuthorFromUNIKOM (work : Work) (queryAuthor : Str) : Bool :=
  let target := normalizeName queryAuthor
  (work.author.getD []).any (fun a =>
    let fullName := normalizeName (fullNameOf a)
    if fullName != target then false
    else
      (a.affiliation.getD []).any (fun aff =>
        let affName := normalizeName (orEmpty aff.name)
        includes affName "universitas komputer indonesia".toList ||
          includes affName "unikom".toList))

/-- The constant `YEAR_START`. -/
def YEAR_START : Nat := 2021

/-- The constant `YEAR_END`. -/
def YEAR_END : Nat := 2026

/-- The constant `START_INDEX`. -/
def START_INDEX : Nat := 203

/-- The constant `ROWS_PER_REQUEST`. -/
def ROWS_PER_REQUEST : Nat := 100

/-- The constant `MAX_OFFSET`. -/
def MAX_OFFSET : Nat := 10000

/-- The constant `REQUEST_DELAY_MS`. -/
def REQUEST_DELAY_MS : Nat := 500

/-- The constant `AUTHOR_BATCH_SIZE`. -/
def AUTHOR_BATCH_SIZE : Nat := 8

/-! ### CSV output -/

/-- The call `String(val).replace(/"/g, '""')` on a string. -/
def escapeQuotes : Str → Str
  | [] => []
  | c :: cs => if c == '"' then '"' :: '"' :: escapeQuotes cs else c :: escapeQuotes cs

/-- The function `csvSafe`; `none` stands for `null` and `undefined`. -/
def csvSafe : Option Str → Str
  | none => []
  | some val => '"' :: (escapeQuotes val ++ ['"'])

/-- The method `join` on an array of strings. -/
def join (sep : Str) (xs : List Str) : Str := sep.intercalate xs

/-- The text of a number of a `date-parts` array inside `join`; `null` gives the empty
string. -/
def partText : Option Nat → Str
  | none => []
  | some n => (Nat.repr n).toList

/-- The expression `x || y` for a string `x` that may be absent: the empty string is falsy. -/
def orElse (x : Option Str) (y : Str) : Str :=
  match x with
  | some (c :: cs) => c :: cs
  | _ => y

/-- The expression `d?.["date-parts"]?.[0]?.join("-")`. -/
def firstDate (d : Option DateField) : Option Str :=
  match d with
  | none => none
  | some f =>
    match f.dateParts with
    | none => none
    | some parts => (parts.head?).map (fun p => join "-".toList (p.map partText))

/-- A template slot `${v}`: an absent value (`undefined`, which is `none`) prints as
`undefined`; a `null` value prints as `null` and is `some` of that text. -/
def slot : Option Str → Str
  | none => "undefined".toList
  | some v => v

/-- The 22 values that `workToCSVRow` puts in a row, in column order. -/
def rowValues (work : Work) (authorQuery : Str) : List Str :=
  let authorsStr := join "; ".toList ((work.author.getD []).map (fun a => trim (fullNameOf a)))
  let containerTitle := orEmpty (work.containerTitle.bind List.head?)
  let shortContainerTitle := orEmpty (work.shortContainerTitle.bind List.head?)
  let publishedDate :=
    orElse (firstDate work.publishedPrint) (orElse (firstDate work.publishedOnline) [])
  let indexedDateTime := orEmpty (work.indexed.bind (fun i => i.dateTime))
  let indexedDateParts :=
    orEmpty ((work.indexed.bind (fun i => i.dateParts)).map (fun ps =>
      join "; ".toList (ps.map (fun p => join "-".toList (p.map partText)))))
  let pdfLink :=
    orEmpty (((work.link.getD []).find?
      (fun l => l.contentType == some "application/pdf".toList)).bind (fun l => l.URL))
  let linkUrls := join "; ".toList ((work.link.getD []).map (fun l => orEmpty l.URL))
  let abstractStr := orEmpty work.abstract
  let issnStr := join "; ".toList (work.ISSN.getD [])
  let issnTypeStr :=
    join "; ".toList ((work.issnType.getD []).map (fun i =>
      slot i.value ++ "(".toList ++ slot i.type ++ ")".toList))
  [ authorQuery,
    orEmpty work.DOI,
    orEmpty (work.title.bind List.head?),
    authorsStr,
    containerTitle,
    shortContainerTitle,
    orEmpty work.publisher,
    orEmpty work.issue,
    orEmpty work.volume,
    orEmpty work.page,
    publishedDate,
    orEmpty work.type,
    orEmpty work.source,
    pdfLink,
    linkUrls,
    abstractStr,
    orEmpty work.score,
    issnStr,
    issnTypeStr,
    indexedDateTime,
    indexedDateParts,
    orEmpty work.URL ]

/-- The function `workToCSVRow`: the values, each through `csvSafe`, joined by commas. -/
def workToCSVRow (work : Work) (authorQuery : Str) : Str :=
  join ",".toList ((rowValues work authorQuery).map (fun v => csvSafe (some v)))

/-- The array `headers` of `run`. -/
def headers : List Str :=
  ["author_query".toList, "doi".toList, "title".toList, "authors".toList,
   "container_title".toList, "short_container_title".toList, "publisher".toList,
   "issue".toList, "volume".toList, "page".toList, "published".toList, "type".toList,
   "source".toList, "pdf_link".toList, "all_links".toList, "abstract".toList,
   "score".toList, "issn".toList, "issn_type".toList, "indexed_date_time".toList,
   "indexed_date_parts".toList, "url".toList]

/-- The header line `headers.map(csvSafe).join(",")`. -/
def headerRow : Str := join ",".toList (headers.map (fun v => csvSafe (some v)))

/-- The reader's side, which is not part of the repository: the standard CSV rule for
reading a record back, first half.  The record is cut at the commas that stand outside
double quotes.  The flag tells whether an opening quote is pending, and
`cur` holds the characters of the current field in reverse. -/
def splitFieldsAux : Bool → Str → Str → List Str
  | _, cur, [] => [cur.reverse]
  | inQuotes, cur, c :: cs =>
    if c == '"' then splitFieldsAux (!inQuotes) (c :: cur) cs
    else if c == ',' && !inQuotes then cur.reverse :: splitFieldsAux false [] cs
    else splitFieldsAux inQuotes (c :: cur) cs

/-- The fields of a CSV record, still quoted. -/
def splitFields (row : Str) : List Str := splitFieldsAux false [] row

/-- Each doubled quote becomes one quote. -/
def undoubleQuotes : Str → Str
  | [] => []
  | [c] => [c]
  | c :: d :: cs =>
    if c == '"' && d == '"' then '"' :: undoubleQuotes cs else c :: undoubleQuotes (d :: cs)

/-- The reader's side, second half of the standard CSV rule: the enclosing quotes of a
field are dropped and each doubled quote inside becomes one; `none` when the field is not
enclosed in quotes. -/
def readField (field : Str) : Option Str :=
  match field with
  | c :: rest =>
    if c == '"' && rest.getLast? == some '"' then some (undoubleQuotes rest.dropLast) else none
  | [] => none

/-! ### Requests to Crossref -/

/-- What identifies the URL of a request: the queried author, the year and the offset
(`rows` is the constant `ROWS_PER_REQUEST`). -/
structure Request where
  author : Str
  year : Nat
  offset : Nat
deriving DecidableEq, Repr

/-- The outcome of `fetch(url)` followed by `res.json()`. -/
inductive Response where
  /-- The call `fetch` or `res.json()` throws, or `data.message` is missing. -/
  | failed
  /-- The response has `res.ok` false. -/
  | notOk
  /-- A parsed page: `message.items` (possibly absent) and `message["total-results"]`.
  An absent total (`undefined`, for which the comparison with the offset is false) is
  `none`; a `null` total compares as 0 and is `some 0`. -/
  | ok (items : Option (List Work)) (totalResults : Option Nat)
deriving DecidableEq, Repr

/-- The remote source: the response to a request, which may also depend on how many
requests the run has issued before it. -/
abbrev Source := Nat → Request → Response

/-- What the harvesting loop does that the outside can observe. -/
inductive Event where
  /-- An outbound `fetch(url)`. -/
  | request (r : Request)
  /-- A completed `await sleep(ms)`. -/
  | sleep (ms : Nat)
deriving DecidableEq, Repr

/-- The result of one `fetchWorksByAuthorYear`: the array `works`, the events in order, and
the number of requests the run has issued so far. -/
structure Fetched where
  works : List Work
  trace : List Event
  count : Nat
deriving DecidableEq, Repr

/-- The comparison `offset >= data.message["total-results"]`, false for an absent total
(`undefined`). -/
def reachedTotal (offset : Nat) (totalResults : Option Nat) : Bool :=
  match totalResults with
  | none => false
  | some t => decide (t ≤ offset)

/-- The loop `while (offset < MAX_OFFSET)` of `fetchWorksByAuthorYear`, from the state
`offset`, `works`; `count` requests were issued before.  One unit of fuel is one iteration. -/
def fetchLoop (src : Source) (authorName : Str) (year : Nat) :
    Nat → Nat → List Work → Nat → Option Fetched
  | 0, offset, works, count =>
    if offset < MAX_OFFSET then none else some ⟨works, [], count⟩
  | fuel + 1, offset, works, count =>
    if offset < MAX_OFFSET then
      let req := Event.request ⟨authorName, year, offset⟩
      match src count ⟨authorName, year, offset⟩ with
      | .failed => some ⟨works, [req], count + 1⟩
      | .notOk => some ⟨works, [req], count + 1⟩
      | .ok items totalResults =>
        let items := items.getD []
        if items.length = 0 then some ⟨works, [req], count + 1⟩
        else if reachedTotal (offset + ROWS_PER_REQUEST) totalResults then
          some ⟨works ++ items, [req], count + 1⟩
        else
          (fetchLoop src authorName year fuel (offset + ROWS_PER_REQUEST) (works ++ items)
              (count + 1)).map
            (fun r => ⟨r.works, req :: Event.sleep REQUEST_DELAY_MS :: r.trace, r.count⟩)
    else some ⟨works, [], count⟩

/-- The function `fetchWorksByAuthorYear`; the offset grows by `ROWS_PER_REQUEST` in each
iteration, so `MAX_OFFSET / ROWS_PER_REQUEST` iterations are enough fuel. -/
def fetchWorksByAuthorYear (src : Source) (authorName : Str) (year : Nat) (count : Nat) :
    Option Fetched :=
  fetchLoop src authorName year (MAX_OFFSET / ROWS_PER_REQUEST) 0 [] count

/-! ### The main loop -/

/-- The settings of `run` that the source fixes as constants. -/
structure Config where
  yearStart : Nat
  yearEnd : Nat
  startIndex : Nat
  batchSize : Nat
deriving DecidableEq, Repr

/-- The settings as `crossref/main.js` has them. -/
def sourceConfig : Config :=
  ⟨YEAR_START, YEAR_END, START_INDEX, AUTHOR_BATCH_SIZE⟩

/-- What the main loop has done so far: the rows written to the output stream (each row is
followed by a line feed in the file), the events, and the number of requests issued. -/
structure Harvest where
  rows : List Str
  trace : List Event
  count : Nat
deriving DecidableEq, Repr

/-- The test `ok` of the innermost loop of `run`. -/
def passesFilter (w : Work) (author : Str) : Bool :=
  if FILTER_UNIKOM then isExactAuthorFromUNIKOM w author else isExactAuthorMatch w author

/-- The loop `for (const w of works)`: the rows written for the works of one query. -/
def rowsOf (author : Str) (works : List Work) : List Str :=
  (works.filter (fun w => passesFilter w author)).map (fun w => workToCSVRow w author)

/-- The years `year = yearStart; year <= yearEnd; year++`. -/
def yearsOf (cfg : Config) : List Nat :=
  List.range' cfg.yearStart (cfg.yearEnd + 1 - cfg.yearStart)

/-- The loop over the years for one author, continuing from `h`. -/
def harvestYears (src : Source) (author : Str) : List Nat → Harvest → Option Harvest
  | [], h => some h
  | year :: years, h =>
    match fetchWorksByAuthorYear src author year h.count with
    | none => none
    | some r =>
      harvestYears src author years
        ⟨h.rows ++ rowsOf author r.works, h.trace ++ r.trace, r.count⟩

/-- The loop `for (const author of batch)`. -/
def harvestAuthors (src : Source) (cfg : Config) : List Str → Harvest → Option Harvest
  | [], h => some h
  | author :: authors, h =>
    match harvestYears src author (yearsOf cfg) h with
    | none => none
    | some h1 => harvestAuthors src cfg authors h1

/-- The method `slice(start, end)` for `start ≤ end`. -/
def slice (xs : List Str) (start stop : Nat) : List Str := (xs.drop start).take (stop - start)

/-- The values that `batch` takes in the loop
`for (let i = startIndex; i < authors.length; i += batchSize)` of `run`, from index `i`
on.  One unit of fuel is one iteration. -/
def batchesFrom (authors : List Str) (batchSize : Nat) : Nat → Nat → Option (List (List Str))
  | 0, i => if i < authors.length then none else some []
  | fuel + 1, i =>
    if i < authors.length then
      (batchesFrom authors batchSize fuel (i + batchSize)).map
        (fun rest => slice authors i (i + batchSize) :: rest)
    else some []

/-- The batches of a run, with the fuel that `run` gives its loop. -/
def batches (authors : List Str) (cfg : Config) : Option (List (List Str)) :=
  batchesFrom authors cfg.batchSize authors.length cfg.startIndex

/-- The body of the batch loop of `run` on each batch of a list in turn. -/
def harvestBatches (src : Source) (cfg : Config) : List (List Str) → Harvest → Option Harvest
  | [], h => some h
  | batch :: rest, h =>
    match harvestAuthors src cfg batch h with
    | none => none
    | some h1 => harvestBatches src cfg rest h1

/-- The output file and what `run` did.  `file` is the list of the lines of `OUTPUT_CSV`. -/
structure RunResult where
  file : List Str
  trace : List Event
  count : Nat
deriving DecidableEq, Repr

/-- The output file after the block `if (!fs.existsSync(OUTPUT_CSV)) ...`: a missing file
(`none`) is created with the header line.  An existing file is taken to end with a line
feed, so that the first row appended starts a line of its own. -/
def initialFile (file : Option (List Str)) : List Str :=
  match file with
  | none => [headerRow]
  | some ls => ls

/-- The loop `for (let i = startIndex; i < authors.length; i += batchSize)` of `run`, from
index `i` on: the batch `authors.slice(i, i + batchSize)` is harvested and its rows are
appended to the output stream.  One unit of fuel is one iteration. -/
def batchLoop (src : Source) (cfg : Config) (authors : List Str) :
    Nat → Nat → Harvest → Option Harvest
  | 0, i, h => if i < authors.length then none else some h
  | fuel + 1, i, h =>
    if i < authors.length then
      match harvestAuthors src cfg (slice authors i (i + cfg.batchSize)) h with
      | none => none
      | some h1 => batchLoop src cfg authors fuel (i + cfg.batchSize) h1
    else some h

/-- The function `run` on the author names read from the input and the lines of the output
file before the run (`none` when the file does not exist): the header is written when the
file is missing, and the rows of each batch are appended.  With a positive batch size the
index passes the end of the list within `authors.length` iterations. -/
def run (src : Source) (cfg : Config) (authors : List Str) (file : Option (List Str)) :
    Option RunResult :=
  let file0 := initialFile file
  match batchLoop src cfg authors authors.length cfg.startIndex ⟨[], [], 0⟩ with
  | none => none
  | some h => some ⟨file0 ++ h.rows, h.trace, h.count⟩

/-! ### Properties of traces -/

/-- The requests of a trace, in order. -/
def requestsOf : List Event → List Request
  | [] => []
  | .request q :: es => q :: requestsOf es
  | .sleep _ :: es => requestsOf es

/-- Whether an event is a request. -/
def Event.isRequest : Event → Bool
  | .request _ => true
  | .sleep _ => false

/-- Whether an event is the first request of a query, the one for offset 0. -/
def Event.isFirstPage : Event → Bool
  | .request q => q.offset == 0
  | .sleep _ => false

/-- In this trace a request is directly followed only by a sleep of `REQUEST_DELAY_MS`, and
directly preceded only by one: between two consecutive requests the delay has elapsed. -/
def Spaced (trace : List Event) : Prop :=
  List.Chain'
    (fun a b => (a.isRequest = true → b = Event.sleep REQUEST_DELAY_MS) ∧
      (b.isRequest = true → a = Event.sleep REQUEST_DELAY_MS))
    trace

/-- In this trace every request other than the first request of a query (offset 0) comes
directly after a sleep of `REQUEST_DELAY_MS`, and a request is directly followed only by
that sleep or by the first request of another query. -/
def DelayedPages (trace : List Event) : Prop :=
  List.Chain'
    (fun a b => (a.isRequest = true → b = Event.sleep REQUEST_DELAY_MS ∨ b.isFirstPage = true) ∧
      (b.isRequest = true → a = Event.sleep REQUEST_DELAY_MS ∨ b.isFirstPage = true))
    trace

/-- A stretch of the trace made of whole queries: it is `DelayedPages` and, when not empty,
starts with the first request of a query. -/
def QueryTrace (trace : List Event) : Prop :=
  DelayedPages trace ∧ ∀ e ∈ trace.head?, e.isFirstPage = true

/-- The works that the source returns for the years in turn, the first query being the
request number `count` of the run. -/
def fetchedWorks (src : Source) (author : Str) : List Nat → Nat → List Work
  | [], _ => []
  | year :: years, count =>
    match fetchWorksByAuthorYear src author year count with
    | none => []
    | some r => r.works ++ fetchedWorks src author years r.count

/-! ### Example data -/

/-- A work whose only author is Jane Doe. -/
def janeWork : Work := { author := some [{ given := some "Jane".toList, family := some "Doe".toList }] }

/-- A work whose only author is Jean Doe. -/
def jeanWork : Work := { author := some [{ given := some "Jean".toList, family := some "Doe".toList }] }

/-- A work whose only author is Jane Doe Smith. -/
def janeDoeSmithWork : Work :=
  { author := some [{ given := some "Jane".toList, family := some "Doe Smith".toList }] }

/-- A work whose only author entry has neither `given` nor `family`. -/
def namelessWork : Work := { author := some [{ given := none, family := none }] }

/-- A work whose only author is John Roe. -/
def johnWork : Work :=
  { author := some [{ given := some "John".toList, family := some "Roe".toList }] }

/-- A source that answers every request with one page of two works, Jane Doe's and John
Roe's, and reports two results in all. -/
def twoWorkSource : Source := fun _ _ => .ok (some [janeWork, johnWork]) (some 2)

/-- A source with 150 results for every query: a first page of two works, then nothing. -/
def pagedSource : Source := fun _ q =>
  if q.offset = 0 then .ok (some [janeWork, johnWork]) (some 150) else .ok (some []) (some 150)

/-- A source whose first page announces 150 results and whose later requests fail. -/
def failingSource : Source := fun _ q =>
  if q.offset = 0 then .ok (some [janeWork, johnWork]) (some 150) else .failed

/-- Five author names. -/
def fiveAuthors : List Str := ["a".toList, "b".toList, "c".toList, "d".toList, "e".toList]

/-- Settings that resume at index 1 with batches of two. -/
def resumeConfig : Config := ⟨2021, 2021, 1, 2⟩

/-- The settings of the end-to-end scenario: the window 2021 to 2021, from the first author
on. -/
def scenarioConfig : Config := ⟨2021, 2021, 0, AUTHOR_BATCH_SIZE⟩


end Crossref

namespace OpenAlex

/-- The list `TITLE_PREFIX`. -/
def TITLE_PREFIX : List Str :=
  ["prof".toList, "prof.".toList, "dr".toList, "dr.".toList, "ir".toList, "ir.".toList,
   "hj".toList, "h.".toList, "h".toList]

/-- The list `TITLE_SUFFIX`. -/
def TITLE_SUFFIX : List Str :=
  ["s.t".toList, "st".toList, "s.kom".toList, "skom".toList, "m.kom".toList, "mkom".toList,
   "m.t".toList, "mt".toList, "m.sc".toList, "msc".toList, "ph.d".toList, "phd".toList,
   "m.si".toList, "msi".toList, "m.m".toList, "mm".toList, "s.si".toList, "ssi".toList,
   "s.pd".toList, "spd".toList]

/-- One character `p` of a title, as it reads inside `new RegExp(..., "i")`, against the
character `c`: a dot is any single UTF-16 unit but a line terminator, a letter is itself in
either case. -/
def atomMatches (p c : Char) : Bool :=
  if p == '.' then !isLineTerminator c && c.toNat < 65536 else c.toLower == p

/-- The title `t`, read as a regular expression, matched at the head of `s`; the result is
what follows the match. -/
def matchAtoms : Str → Str → Option Str
  | [], s => some s
  | _ :: _, [] => none
  | p :: ps, c :: cs => if atomMatches p c then matchAtoms ps cs else none

/-- For `r = new RegExp("^" + t + "\\s+", "i")`: `none` when `r.test(n)` is false, else
`n.replace(r, "")`. -/
def stripPrefixToken (t n : Str) : Option Str :=
  match matchAtoms t n with
  | some (c :: rest) => if isSpace c then some (rest.dropWhile isSpace) else none
  | _ => none

/-- For `r = new RegExp("[\\s,]+" + t + "$", "i")`: `none` when `r.test(n)` is false, else
`n.replace(r, "")`.  The title takes the last characters of `n`, and the leftmost match
starts where the run of white space and commas before it starts. -/
def stripSuffixToken (t n : Str) : Option Str :=
  match matchAtoms t.reverse n.reverse with
  | some (c :: rest) =>
    if isSpace c || c == ',' then
      some ((rest.dropWhile (fun d => isSpace d || d == ',')).reverse)
    else none
  | _ => none

/-- The body of the `forEach` callback, on the pair of `n` and the flag `removed`: when the
pattern of the title `t` matches, the match is cut out of `n` and the flag is set. -/
def passStep (strip : Str → Str → Option Str) (st : Str × Bool) (t : Str) : Str × Bool :=
  match strip t st.1 with
  | some m => (m, true)
  | none => st

/-- One `forEach` over the titles, entered with `removed = false`. -/
def stripPass (strip : Str → Str → Option Str) (titles : List Str) (n : Str) : Str × Bool :=
  titles.foldl (passStep strip) (n, false)

/-- The loop `while (removed) { removed = false; titles.forEach(...) }`, entered with
`removed = true`. -/
def stripLoop (strip : Str → Str → Option Str) (titles : List Str) : Nat → Str → Option Str
  | 0, _ => none
  | fuel + 1, n =>
    match stripPass strip titles n with
    | (m, true) => stripLoop strip titles fuel m
    | (m, false) => some m

/-- The call `nama.toLowerCase().replace(/,/g, " ")`. -/
def lowerNoComma (nama : Str) : Str :=
  (toLowerCase nama).map (fun c => if c == ',' then ' ' else c)

/-- The function `normalizeName` of `match-author-openalex.js`.  A pass that removes a title
shortens `n`, so `n.length + 1` passes are enough fuel for either loop. -/
def normalizeName (nama : Str) : Option Str :=
  let n := lowerNoComma nama
  match stripLoop stripPrefixToken TITLE_PREFIX (n.length + 1) n with
  | none => none
  | some n1 =>
    match stripLoop stripSuffixToken TITLE_SUFFIX (n1.length + 1) n1 with
    | none => none
    | some n2 => some (trim (collapseSpaces n2))

/-- Every character is in lower case and none is a comma. -/
def LowerNoComma (n : Str) : Prop := ∀ c ∈ n, c.toLower = c ∧ c ≠ ','

/-! ### The main loop of the author matcher -/

/-- A row of the input as `readCSV` returns it: the fields `id_author` and `nama`. -/
structure Dosen where
  id_author : Str
  nama : Str
deriving DecidableEq, Repr

/-- The field `summary_stats` of an OpenAlex author.  A number is held as its text
`String(val)`; `none` stands for `null` and `undefined`. -/
structure SummaryStats where
  h_index : Option Str
  i10_index : Option Str
  twoYrMeanCitedness : Option Str
deriving DecidableEq, Repr

/-- An entry of `results` of the OpenAlex author search, with the fields that `run` reads.
A number is held as its text `String(val)`; `none` stands for `null` and `undefined`,
except in `id`, which goes into a template slot: there `none` is `undefined` only. -/
structure Candidate where
  id : Option Str
  orcid : Option Str
  relevance_score : Option Str
  works_count : Option Str
  cited_by_count : Option Str
  summary_stats : Option SummaryStats
deriving DecidableEq, Repr

/-- The outcome of `searchAuthor(nama)`. -/
inductive SearchOutcome where
  /-- The call `fetch` or `res.json()` throws. -/
  | failed
  /-- The parsed answer with its field `results`, possibly absent. -/
  | ok (results : Option (List Candidate))
deriving DecidableEq, Repr

/-- The remote search: the outcome for a cleaned name, which may also depend on the
position of the subject in the list. -/
abbrev Search := Nat → Str → SearchOutcome

/-- The function `asText`. -/
def asText : Option Str → Str
  | none => []
  | some [] => []
  | some (c :: cs) => '=' :: '"' :: (c :: cs ++ ['"'])

/-- The first line of `csv` in `run`, without its line feed. -/
def header : Str :=
  ("id_author,nama,openalex_id,orcid,relevance_score,works_count,cited_by_count," ++
    "h_index,i10_index,2yr_mean_citedness").toList

/-- The template piece `"${v}"`: the text between double quotes. -/
def quoted (v : Str) : Str := '"' :: (v ++ ['"'])

/-- The row added when `!match` holds, without its line feed: the name in quotes and
eight commas. -/
def notFoundRow (d : Dosen) : Str :=
  quoted d.nama ++ ",,,,,,,,".toList

/-- The row added for a match, without its line feed. -/
def matchedRow (d : Dosen) (found : Candidate) : Str :=
  let stats : SummaryStats := found.summary_stats.getD ⟨none, none, none⟩
  quoted d.id_author ++ ",".toList ++
  quoted d.nama ++ ",".toList ++
  quoted (Crossref.slot found.id) ++ ",".toList ++
  quoted (orEmpty found.orcid) ++ ",".toList ++
  asText found.relevance_score ++ ",".toList ++
  asText found.works_count ++ ",".toList ++
  asText found.cited_by_count ++ ",".toList ++
  asText stats.h_index ++ ",".toList ++
  asText stats.i10_index ++ ",".toList ++
  asText stats.twoYrMeanCitedness

/-- The ten pieces of the row added for a match, which stand between its nine commas. -/
def matchedPieces (d : Dosen) (found : Candidate) : List Str :=
  let stats : SummaryStats := found.summary_stats.getD ⟨none, none, none⟩
  [quoted d.id_author, quoted d.nama, quoted (Crossref.slot found.id),
   quoted (orEmpty found.orcid), asText found.relevance_score, asText found.works_count,
   asText found.cited_by_count, asText stats.h_index, asText stats.i10_index,
   asText stats.twoYrMeanCitedness]

/-- The body of the loop `for (const d of dosenList)` for the subject at position `k`: the
row it adds to `csv`. -/
def rowFor (search : Search) (k : Nat) (d : Dosen) : Option Str :=
  match normalizeName d.nama with
  | none => none
  | some cleanName =>
    let found : Option Candidate :=
      match search k cleanName with
      | .failed => none
      | .ok results => (results.getD []).head?
    match found with
    | none => some (notFoundRow d)
    | some c => some (matchedRow d c)

/-- The loop `for (const d of dosenList)`, from position `k` on: the rows added to `csv`. -/
def rowsFrom (search : Search) : Nat → List Dosen → Option (List Str)
  | _, [] => some []
  | k, d :: ds =>
    match rowFor search k d with
    | none => none
    | some row => (rowsFrom search (k + 1) ds).map (fun rows => row :: rows)

/-- The function `run` of `match-author-openalex.js` on the list that `readCSV` returns: the
lines of the string `csv` written to the output. -/
def run (search : Search) (dosenList : List Dosen) : Option (List Str) :=
  (rowsFrom search 0 dosenList).map (fun rows => header :: rows)

/-- The call `line.split(",")`, by which `readCSV` cuts a line into its columns. -/
def splitCommas : Str → List Str
  | [] => [[]]
  | c :: cs =>
    if c == ',' then [] :: splitCommas cs
    else
      match splitCommas cs with
      | [] => [[c]]
      | f :: fs => (c :: f) :: fs

/-! ### Example data -/

/-- The subject of the examples. -/
def janeDoe : Dosen := ⟨"A1".toList, "Jane Doe".toList⟩

/-- A search that finds no candidate. -/
def emptySearch : Search := fun _ _ => .ok (some [])

/-- A search that throws. -/
def failingSearch : Search := fun _ _ => .failed

/-- A candidate with an identifier and three counts. -/
def janeCandidate : Candidate :=
  { id := some "https://openalex.org/A5001".toList, orcid := none,
    relevance_score := some "12.5".toList, works_count := some "7".toList,
    cited_by_count := some "0".toList,
    summary_stats := some ⟨some "2".toList, some "1".toList, none⟩ }

/-- A search that finds the one candidate. -/
def oneCandidateSearch : Search := fun _ _ => .ok (some [janeCandidate])

end OpenAlex

/-! ## Theorems -/

/-! ### White space -/

theorem tidy_reverse {l : Str} (h : Tidy l) : Tidy l.reverse := by
  obtain ⟨h1, h2, h3, h4⟩ := h
  refine ⟨?_, ?_, ?_, ?_⟩
  · rw [List.chain'_reverse]
    exact h1.imp (fun a b hab hba => hab ⟨hba.2, hba.1⟩)
  · intro c hc; exact h2 c (List.mem_reverse.1 hc)
  · simpa using h4
  · simpa using h3

theorem tidy_suffix {m n : Str} (h : Tidy n) (hs : m <:+ n)
    (hh : ∀ c ∈ m.head?, isSpace c = false) : Tidy m := by
  obtain ⟨h1, h2, _, h4⟩ := h
  refine ⟨h1.suffix hs, fun c hc => h2 c (hs.subset hc), hh, ?_⟩
  obtain ⟨a, rfl⟩ := hs
  intro c hc
  apply h4 c
  rw [List.getLast?_append, Option.mem_def.1 hc]
  simp

theorem collapseAux_space_true {c : Char} (cs : Str) (h : isSpace c = true) :
    collapseAux true (c :: cs) = collapseAux true cs := by
  simp [collapseAux, h]

theorem collapseAux_space_false {c : Char} (cs : Str) (h : isSpace c = true) :
    collapseAux false (c :: cs) = ' ' :: collapseAux true cs := by
  simp [collapseAux, h]

theorem collapseAux_nonspace {c : Char} (b : Bool) (cs : Str) (h : ¬ isSpace c = true) :
    collapseAux b (c :: cs) = c :: collapseAux false cs := by
  simp [collapseAux, h]

theorem collapseAux_fix : ∀ (l : Str) (b : Bool),
    List.Chain' (fun a b => ¬(isSpace a = true ∧ isSpace b = true)) l →
    (∀ c ∈ l, isSpace c = true → c = ' ') →
    (b = true → ∀ c ∈ l.head?, isSpace c = false) → collapseAux b l = l := by
  intro l
  induction l with
  | nil => intro b _ _ _; rfl
  | cons c cs ih =>
    intro b h1 h2 h3
    rw [List.chain'_cons'] at h1
    have h2' : ∀ d ∈ cs, isSpace d = true → d = ' ' := fun d hd => h2 d (List.mem_cons_of_mem _ hd)
    by_cases hc : isSpace c = true
    · have hb : b = false := by
        cases b with
        | false => rfl
        | true => have := h3 rfl c (by simp); simp [hc] at this
      subst hb
      have hcs : c = ' ' := h2 c (List.mem_cons_self _ _) hc
      rw [collapseAux_space_false cs hc, ih true h1.2 h2' (fun _ d hd => by
        have := h1.1 d hd
        simp only [hc, true_and] at this
        simpa using this), hcs]
    · rw [collapseAux_nonspace b cs hc, ih false h1.2 h2' (fun hf => by simp at hf)]

theorem dropWhile_fix {p : Char → Bool} {l : Str} (h : ∀ c ∈ l.head?, p c = false) :
    l.dropWhile p = l := by
  cases l with
  | nil => rfl
  | cons c cs =>
    have := h c (by simp)
    simp [List.dropWhile_cons, this]

theorem trim_fix {l : Str} (h3 : ∀ c ∈ l.head?, isSpace c = false)
    (h4 : ∀ c ∈ l.getLast?, isSpace c = false) : trim l = l := by
  unfold trim
  rw [dropWhile_fix h3, dropWhile_fix (by simpa using h4), List.reverse_reverse]

theorem tidy_fix {l : Str} (h : Tidy l) : trim (collapseSpaces l) = l := by
  obtain ⟨h1, h2, h3, h4⟩ := h
  unfold collapseSpaces
  rw [collapseAux_fix l false h1 h2 (fun hf => by simp at hf)]
  exact trim_fix h3 h4

theorem collapseAux_shape : ∀ (l : Str) (b : Bool),
    List.Chain' (fun a b => ¬(isSpace a = true ∧ isSpace b = true)) (collapseAux b l) ∧
    (∀ c ∈ collapseAux b l, isSpace c = true → c = ' ') ∧
    (b = true → ∀ c ∈ (collapseAux b l).head?, isSpace c = false) := by
  intro l
  induction l with
  | nil => intro b; simp [collapseAux]
  | cons c cs ih =>
    intro b
    by_cases hc : isSpace c = true
    · cases b with
      | true =>
        rw [collapseAux_space_true cs hc]
        exact ih true
      | false =>
        rw [collapseAux_space_false cs hc]
        obtain ⟨i1, i2, i3⟩ := ih true
        refine ⟨?_, ?_, fun hf => by simp at hf⟩
        · rw [List.chain'_cons']
          refine ⟨fun y hy hmm => ?_, i1⟩
          have := i3 rfl y hy
          simp [this] at hmm
        · intro d hd hsp
          rcases List.mem_cons.1 hd with rfl | hd
          · rfl
          · exact i2 d hd hsp
    · rw [collapseAux_nonspace b cs hc]
      obtain ⟨i1, i2, _⟩ := ih false
      refine ⟨?_, ?_, ?_⟩
      · rw [List.chain'_cons']
        exact ⟨fun y _ hmm => hc hmm.1, i1⟩
      · intro d hd hsp
        rcases List.mem_cons.1 hd with rfl | hd
        · exact absurd hsp hc
        · exact i2 d hd hsp
      · intro _ d hd
        simp at hd
        subst hd
        simpa using hc

theorem head?_dropWhile_false (p : Char → Bool) (l : Str) :
    ∀ c ∈ (l.dropWhile p).head?, p c = false := by
  intro c hc
  have := List.head?_dropWhile_not p l
  rw [Option.mem_def.1 hc] at this
  simpa using this

theorem tidy_trim_collapse (l : Str) : Tidy (trim (collapseSpaces l)) := by
  obtain ⟨i1, i2, _⟩ := collapseAux_shape l false
  unfold trim collapseSpaces
  have hsuf : List.dropWhile isSpace (collapseAux false l) <:+ collapseAux false l :=
    List.dropWhile_suffix _
  have hpre : (((collapseAux false l).dropWhile isSpace).reverse.dropWhile isSpace).reverse
      <+: (collapseAux false l).dropWhile isSpace := by
    rw [← List.reverse_suffix, List.reverse_reverse]
    exact List.dropWhile_suffix _
  have hchain := List.Chain'.prefix (i1.suffix hsuf) hpre
  refine ⟨hchain, fun c hc => i2 c (hsuf.subset (hpre.subset hc)), ?_, ?_⟩
  · intro c hc
    have h0 := head?_dropWhile_false isSpace (collapseAux false l)
    apply h0 c
    obtain ⟨t, ht⟩ := hpre
    rw [← ht, List.head?_append]
    simp [Option.mem_def.1 hc]
  · intro c hc
    rw [List.getLast?_reverse] at hc
    exact head?_dropWhile_false isSpace _ c hc

theorem tidy_iff (l : Str) : trim (collapseSpaces l) = l ↔ Tidy l :=
  ⟨fun h => h ▸ tidy_trim_collapse l, tidy_fix⟩


theorem char_toLower_of_not_upper (d : Char) (hd : ¬(65 ≤ d.toNat ∧ d.toNat ≤ 90)) :
    d.toLower = d := by
  simp only [Char.toLower, ge_iff_le, hd, if_false]

theorem char_toLower_idem (c : Char) : c.toLower.toLower = c.toLower := by
  by_cases h : 65 ≤ c.toNat ∧ c.toNat ≤ 90
  · have hc : c.toLower = Char.ofNat (c.toNat + 32) := by
      simp only [Char.toLower, ge_iff_le, h, and_self, if_true]
    rw [hc]
    apply char_toLower_of_not_upper
    generalize c.toNat = n at h
    obtain ⟨h1, h2⟩ := h
    interval_cases n <;> decide
  · rw [char_toLower_of_not_upper c h, char_toLower_of_not_upper c h]

namespace Crossref

/-- C2: `isExactAuthorMatch work subject` holds exactly when some entry of `work.author` has
a full name (absent parts read as empty) whose normal form equals that of the subject; the
author Jane Doe matches "jane doe", the authors Jean Doe and Jane Doe Smith do not. -/
theorem isExactAuthorMatch_iff :
    (∀ (work : Work) (subject : Str),
      isExactAuthorMatch work subject = true ↔
        ∃ a ∈ work.author.getD [],
          normalizeName (orEmpty a.given ++ " ".toList ++ orEmpty a.family)
            = normalizeName subject) ∧
    isExactAuthorMatch janeWork "jane doe".toList = true ∧
    isExactAuthorMatch jeanWork "jane doe".toList = false ∧
    isExactAuthorMatch janeDoeSmithWork "jane doe".toList = false ∧
    isExactAuthorMatch janeWork "jane doe smith".toList = false := by
  refine ⟨?_, by decide, by decide, by decide, by decide⟩
  intro work subject
  simp [isExactAuthorMatch, fullNameOf, List.any_eq_true]

/-- C3, as stated, fails: the subject name "123" is not empty, yet it matches a work whose
only author entry has no name fields, because both normalise to the empty string. -/
theorem isExactAuthorMatch_nameless_counterexample :
    "123".toList ≠ [] ∧
    (∀ a ∈ namelessWork.author.getD [], a.given = none ∧ a.family = none) ∧
    isExactAuthorMatch namelessWork "123".toList = true := by
  decide

/-- C3, amended: a work whose author entries all lack both `given` and `family` never
matches a subject name whose normal form is not empty. -/
theorem isExactAuthorMatch_nameless (work : Work) (s : Str)
    (hs : normalizeName s ≠ [])
    (hw : ∀ a ∈ work.author.getD [], a.given = none ∧ a.family = none) :
    isExactAuthorMatch work s = false := by
  have hblank : normalizeName (" ".toList) = [] := by decide
  simp only [isExactAuthorMatch, List.any_eq_false, beq_iff_eq]
  intro a ha heq
  obtain ⟨hg, hf⟩ := hw a ha
  have hfull : fullNameOf a = " ".toList := by
    simp [fullNameOf, orEmpty, hg, hf]
  rw [hfull, hblank] at heq
  exact hs heq.symm

/-- Witness of C3 amended: the subject "Jane Doe" against the nameless work. -/
theorem isExactAuthorMatch_nameless_witness :
    normalizeName "Jane Doe".toList ≠ [] ∧
    (∀ a ∈ namelessWork.author.getD [], a.given = none ∧ a.family = none) ∧
    isExactAuthorMatch namelessWork "Jane Doe".toList = false :=
  ⟨by decide, by decide,
   isExactAuthorMatch_nameless namelessWork "Jane Doe".toList (by decide) (by decide)⟩

/-! ### The pagination loop -/

theorem requestsOf_cons_request (q : Request) (es : List Event) :
    requestsOf (Event.request q :: es) = q :: requestsOf es := rfl

theorem requestsOf_cons_sleep (ms : Nat) (es : List Event) :
    requestsOf (Event.sleep ms :: es) = requestsOf es := rfl

theorem requestsOf_append (xs ys : List Event) :
    requestsOf (xs ++ ys) = requestsOf xs ++ requestsOf ys := by
  induction xs with
  | nil => rfl
  | cons e es ih =>
    cases e with
    | request q => simp [requestsOf, ih]
    | sleep ms => simp [requestsOf, ih]

/-- What one iteration of the loop does, by the response to its request. -/
theorem fetchLoop_succ (src : Source) (a : Str) (y fuel offset : Nat) (works : List Work)
    (count : Nat) (h : offset < MAX_OFFSET) :
    fetchLoop src a y (fuel + 1) offset works count =
      match src count ⟨a, y, offset⟩ with
      | .failed => some ⟨works, [Event.request ⟨a, y, offset⟩], count + 1⟩
      | .notOk => some ⟨works, [Event.request ⟨a, y, offset⟩], count + 1⟩
      | .ok items totalResults =>
        if (items.getD []).length = 0 then
          some ⟨works, [Event.request ⟨a, y, offset⟩], count + 1⟩
        else if reachedTotal (offset + ROWS_PER_REQUEST) totalResults then
          some ⟨works ++ items.getD [], [Event.request ⟨a, y, offset⟩], count + 1⟩
        else
          (fetchLoop src a y fuel (offset + ROWS_PER_REQUEST) (works ++ items.getD [])
              (count + 1)).map
            (fun r => ⟨r.works,
              Event.request ⟨a, y, offset⟩ :: Event.sleep REQUEST_DELAY_MS :: r.trace,
              r.count⟩) := by
  rw [fetchLoop, if_pos h]

theorem fetchLoop_done (src : Source) (a : Str) (y fuel offset : Nat) (works : List Work)
    (count : Nat) (h : ¬ offset < MAX_OFFSET) :
    fetchLoop src a y fuel offset works count = some ⟨works, [], count⟩ := by
  cases fuel with
  | zero => rw [fetchLoop, if_neg h]
  | succ fuel => rw [fetchLoop, if_neg h]

/-- The invariant of the pagination loop: with enough fuel it returns, and what it returns
is bounded by the distance of the offset from `MAX_OFFSET`. -/
theorem fetchLoop_spec (src : Source) (a : Str) (y : Nat) :
    ∀ (fuel offset : Nat) (works : List Work) (count : Nat),
      MAX_OFFSET ≤ offset + fuel * ROWS_PER_REQUEST →
      ∃ r, fetchLoop src a y fuel offset works count = some r ∧
        (∀ k, fetchLoop src a y (fuel + k) offset works count = some r) ∧
        (∀ q ∈ requestsOf r.trace, q.offset < MAX_OFFSET ∧ offset ≤ q.offset ∧
          q.author = a ∧ q.year = y) ∧
        (requestsOf r.trace).length ≤ fuel ∧
        r.count = count + (requestsOf r.trace).length ∧
        Spaced r.trace ∧
        (∀ e ∈ r.trace.head?, e = Event.request ⟨a, y, offset⟩) := by
  intro fuel
  induction fuel with
  | zero =>
    intro offset works count h
    have hd : ¬ offset < MAX_OFFSET := by omega
    refine ⟨⟨works, [], count⟩, fetchLoop_done _ _ _ _ _ _ _ hd,
      fun k => fetchLoop_done _ _ _ _ _ _ _ hd, ?_, ?_, ?_, ?_, ?_⟩ <;>
      simp [requestsOf, Spaced]
  | succ fuel ih =>
    intro offset works count h
    by_cases hd : offset < MAX_OFFSET
    · have one : ∀ (w : List Work), ∃ r,
          some (Fetched.mk w [Event.request ⟨a, y, offset⟩] (count + 1)) = some r ∧
          (∀ q ∈ requestsOf r.trace, q.offset < MAX_OFFSET ∧ offset ≤ q.offset ∧
            q.author = a ∧ q.year = y) ∧
          (requestsOf r.trace).length ≤ fuel + 1 ∧
          r.count = count + (requestsOf r.trace).length ∧
          Spaced r.trace ∧
          (∀ e ∈ r.trace.head?, e = Event.request ⟨a, y, offset⟩) := by
        intro w
        refine ⟨_, rfl, ?_, ?_, ?_, ?_, ?_⟩ <;>
          simp [requestsOf, Spaced, Event.isRequest, hd]
      have eqk : ∀ k, fuel + 1 + k = (fuel + k) + 1 := fun k => by omega
      cases hr : src count ⟨a, y, offset⟩ with
      | failed =>
        obtain ⟨r, h1, h2⟩ := one works
        refine ⟨r, ?_, fun k => ?_, h2⟩
        · rw [fetchLoop_succ _ _ _ _ _ _ _ hd, hr]; exact h1
        · rw [eqk, fetchLoop_succ _ _ _ _ _ _ _ hd, hr]; exact h1
      | notOk =>
        obtain ⟨r, h1, h2⟩ := one works
        refine ⟨r, ?_, fun k => ?_, h2⟩
        · rw [fetchLoop_succ _ _ _ _ _ _ _ hd, hr]; exact h1
        · rw [eqk, fetchLoop_succ _ _ _ _ _ _ _ hd, hr]; exact h1
      | ok items total =>
        by_cases hi : (items.getD []).length = 0
        · obtain ⟨r, h1, h2⟩ := one works
          refine ⟨r, ?_, fun k => ?_, h2⟩
          · rw [fetchLoop_succ _ _ _ _ _ _ _ hd, hr]; simp only [hi, if_true]; exact h1
          · rw [eqk, fetchLoop_succ _ _ _ _ _ _ _ hd, hr]; simp only [hi, if_true]; exact h1
        · by_cases ht : reachedTotal (offset + ROWS_PER_REQUEST) total = true
          · obtain ⟨r, h1, h2⟩ := one (works ++ items.getD [])
            refine ⟨r, ?_, fun k => ?_, h2⟩
            · rw [fetchLoop_succ _ _ _ _ _ _ _ hd, hr]
              simp only [hi, if_false, ht, if_true]; exact h1
            · rw [eqk, fetchLoop_succ _ _ _ _ _ _ _ hd, hr]
              simp only [hi, if_false, ht, if_true]; exact h1
          · obtain ⟨r, i1, i2, i3, i4, i5, i6, _⟩ :=
              ih (offset + ROWS_PER_REQUEST) (works ++ items.getD []) (count + 1)
                (by rw [Nat.succ_mul] at h; omega)
            refine ⟨⟨r.works,
              Event.request ⟨a, y, offset⟩ :: Event.sleep REQUEST_DELAY_MS :: r.trace,
              r.count⟩, ?_, fun k => ?_, ?_, ?_, ?_, ?_, ?_⟩
            · rw [fetchLoop_succ _ _ _ _ _ _ _ hd, hr]
              simp only [hi, if_false, ht, i1, Option.map_some', Bool.false_eq_true]
            · rw [eqk, fetchLoop_succ _ _ _ _ _ _ _ hd, hr]
              simp only [hi, if_false, ht, i2 k, Option.map_some', Bool.false_eq_true]
            · intro q hq
              simp only [requestsOf, List.mem_cons] at hq
              rcases hq with rfl | hq
              · exact ⟨hd, le_refl _, rfl, rfl⟩
              · obtain ⟨q1, q2, q3, q4⟩ := i3 q hq
                exact ⟨q1, by omega, q3, q4⟩
            · simp only [requestsOf, List.length_cons]; omega
            · simp only [requestsOf, List.length_cons]; omega
            · unfold Spaced
              rw [List.chain'_cons, List.chain'_cons']
              refine ⟨⟨fun _ => rfl, fun he => ?_⟩, fun e _ => ⟨fun he => ?_, fun _ => rfl⟩, i6⟩
              · simp [Event.isRequest] at he
              · simp [Event.isRequest] at he
            · simp [Event.isRequest]
    · refine ⟨⟨works, [], count⟩, fetchLoop_done _ _ _ _ _ _ _ hd,
        fun k => fetchLoop_done _ _ _ _ _ _ _ hd, ?_, ?_, ?_, ?_, ?_⟩ <;>
        simp [requestsOf, Spaced]

/-- C5: for every source, one call of `fetchWorksByAuthorYear` returns (also with any
larger fuel), every offset it requests is below `MAX_OFFSET`, and it issues at most
`MAX_OFFSET / ROWS_PER_REQUEST = 100` requests. -/
theorem fetchWorksByAuthorYear_terminates (src : Source) (a : Str) (y count : Nat) :
    ∃ r, fetchWorksByAuthorYear src a y count = some r ∧
      (∀ k, fetchLoop src a y (MAX_OFFSET / ROWS_PER_REQUEST + k) 0 [] count = some r) ∧
      (∀ q ∈ requestsOf r.trace, q.offset < MAX_OFFSET) ∧
      (requestsOf r.trace).length ≤ MAX_OFFSET / ROWS_PER_REQUEST ∧
      MAX_OFFSET / ROWS_PER_REQUEST = 100 ∧
      r.count = count + (requestsOf r.trace).length := by
  obtain ⟨r, h1, h2, h3, h4, h5, _⟩ :=
    fetchLoop_spec src a y (MAX_OFFSET / ROWS_PER_REQUEST) 0 [] count (by decide)
  exact ⟨r, h1, h2, fun q hq => (h3 q hq).1, h4, by decide, h5⟩

set_option maxRecDepth 1000000 in
/-- C4, at the failing input: with the settings of the source, 204 authors and a source
that answers every query with one complete page, the run issues its six requests (one per
year for the one author from index 203 on) with no sleep between them, where the claim
asks for a sleep of `REQUEST_DELAY_MS` between every two consecutive requests. -/
theorem run_requests_without_delay :
    (run twoWorkSource sourceConfig (List.replicate 204 "a".toList) none).map
        (fun r => r.trace) =
      some [.request ⟨"a".toList, 2021, 0⟩, .request ⟨"a".toList, 2022, 0⟩,
        .request ⟨"a".toList, 2023, 0⟩, .request ⟨"a".toList, 2024, 0⟩,
        .request ⟨"a".toList, 2025, 0⟩, .request ⟨"a".toList, 2026, 0⟩] ∧
    ¬ Spaced [.request ⟨"a".toList, 2021, 0⟩, .request ⟨"a".toList, 2022, 0⟩,
        .request ⟨"a".toList, 2023, 0⟩, .request ⟨"a".toList, 2024, 0⟩,
        .request ⟨"a".toList, 2025, 0⟩, .request ⟨"a".toList, 2026, 0⟩] := by
  refine ⟨by decide, ?_⟩
  unfold Spaced
  intro h
  rw [List.chain'_cons] at h
  have := h.1.1 rfl
  simp at this


/-! ### The loops of `run` -/

theorem spaced_delayedPages {t : List Event} (h : Spaced t) : DelayedPages t :=
  List.Chain'.imp (fun _ _ hab => ⟨fun ha => Or.inl (hab.1 ha), fun hb => Or.inl (hab.2 hb)⟩) h

theorem queryTrace_nil : QueryTrace [] := by
  simp [QueryTrace, DelayedPages]

theorem queryTrace_append {t1 t2 : List Event} (h1 : QueryTrace t1) (h2 : QueryTrace t2) :
    QueryTrace (t1 ++ t2) := by
  refine ⟨?_, ?_⟩
  · unfold DelayedPages
    rw [List.chain'_append]
    refine ⟨h1.1, h2.1, ?_⟩
    intro x _ y hy
    exact ⟨fun _ => Or.inr (h2.2 y hy), fun _ => Or.inr (h2.2 y hy)⟩
  · intro e he
    cases t1 with
    | nil => exact h2.2 e (by simpa using he)
    | cons x xs => exact h1.2 e (by simpa using he)

theorem rowsOf_append (a : Str) (ws1 ws2 : List Work) :
    rowsOf a (ws1 ++ ws2) = rowsOf a ws1 ++ rowsOf a ws2 := by
  simp [rowsOf]

/-- One call of `fetchWorksByAuthorYear`, as the loops of `run` use it. -/
theorem fetch_query (src : Source) (a : Str) (y count : Nat) :
    ∃ r, fetchWorksByAuthorYear src a y count = some r ∧ QueryTrace r.trace ∧
      (∀ q ∈ requestsOf r.trace, q.author = a) := by
  obtain ⟨r, h1, _, h3, _, _, h6, h7⟩ :=
    fetchLoop_spec src a y (MAX_OFFSET / ROWS_PER_REQUEST) 0 [] count (by decide)
  exact ⟨r, h1, ⟨spaced_delayedPages h6, fun e he => by rw [h7 e he]; rfl⟩,
    fun q hq => (h3 q hq).2.2.1⟩

/-- The loop over the years returns; its rows are those of the works fetched, in order, and
its trace is made of whole queries for the author. -/
theorem harvestYears_spec (src : Source) (a : Str) :
    ∀ (years : List Nat) (h : Harvest),
      ∃ h1, harvestYears src a years h = some h1 ∧
        h1.rows = h.rows ++ rowsOf a (fetchedWorks src a years h.count) ∧
        ∃ t, h1.trace = h.trace ++ t ∧ QueryTrace t ∧ ∀ q ∈ requestsOf t, q.author = a := by
  intro years
  induction years with
  | nil =>
    intro h
    exact ⟨h, rfl, by simp [fetchedWorks, rowsOf], [], by simp, queryTrace_nil,
      by simp [requestsOf]⟩
  | cons y ys ih =>
    intro h
    obtain ⟨r, hr, hq, ha⟩ := fetch_query src a y h.count
    obtain ⟨h1, e1, e2, t, e3, e4, e5⟩ :=
      ih ⟨h.rows ++ rowsOf a r.works, h.trace ++ r.trace, r.count⟩
    refine ⟨h1, ?_, ?_, r.trace ++ t, ?_, queryTrace_append hq e4, ?_⟩
    · simp only [harvestYears, hr, e1]
    · simp only [fetchedWorks, hr, e2, rowsOf_append, List.append_assoc]
    · simp only [e3, List.append_assoc]
    · intro q hq'
      rw [requestsOf_append, List.mem_append] at hq'
      rcases hq' with h' | h'
      · exact ha q h'
      · exact e5 q h'

/-- The loop over the authors of a batch returns, and its trace is made of whole queries
for authors of the batch. -/
theorem harvestAuthors_spec (src : Source) (cfg : Config) :
    ∀ (authors : List Str) (h : Harvest),
      ∃ h1, harvestAuthors src cfg authors h = some h1 ∧
        ∃ t, h1.trace = h.trace ++ t ∧ QueryTrace t ∧
          ∀ q ∈ requestsOf t, q.author ∈ authors := by
  intro authors
  induction authors with
  | nil =>
    intro h
    exact ⟨h, rfl, [], by simp, queryTrace_nil, by simp [requestsOf]⟩
  | cons a as ih =>
    intro h
    obtain ⟨h0, d1, _, t0, d3, d4, d5⟩ := harvestYears_spec src a (yearsOf cfg) h
    obtain ⟨h1, e1, t, e3, e4, e5⟩ := ih h0
    refine ⟨h1, ?_, t0 ++ t, ?_, queryTrace_append d4 e4, ?_⟩
    · simp only [harvestAuthors, d1, e1]
    · simp only [e3, d3, List.append_assoc]
    · intro q hq'
      rw [requestsOf_append, List.mem_append] at hq'
      rcases hq' with h' | h'
      · exact List.mem_cons.2 (Or.inl (d5 q h'))
      · exact List.mem_cons_of_mem _ (e5 q h')

theorem harvestAuthors_append (src : Source) (cfg : Config) :
    ∀ (xs ys : List Str) (h : Harvest),
      harvestAuthors src cfg (xs ++ ys) h =
        (harvestAuthors src cfg xs h).bind (harvestAuthors src cfg ys) := by
  intro xs
  induction xs with
  | nil => intro ys h; rfl
  | cons a as ih =>
    intro ys h
    simp only [List.cons_append, harvestAuthors]
    cases harvestYears src a (yearsOf cfg) h with
    | none => rfl
    | some h1 => exact ih ys h1

/-- Batching does not change what is harvested: the batches in turn are the authors of all
batches in turn. -/
theorem harvestBatches_flatten (src : Source) (cfg : Config) :
    ∀ (bs : List (List Str)) (h : Harvest),
      harvestBatches src cfg bs h = harvestAuthors src cfg bs.flatten h := by
  intro bs
  induction bs with
  | nil => intro h; rfl
  | cons b rest ih =>
    intro h
    rw [List.flatten_cons, harvestAuthors_append]
    simp only [harvestBatches]
    cases harvestAuthors src cfg b h with
    | none => rfl
    | some h1 => exact ih h1


/-! ### Batches -/

theorem slice_length (xs : List Str) (i b : Nat) :
    (slice xs i (i + b)).length = min b (xs.length - i) := by
  simp [slice]

theorem slice_append_drop (xs : List Str) (i b : Nat) :
    slice xs i (i + b) ++ xs.drop (i + b) = xs.drop i := by
  have : i + b - i = b := by omega
  rw [slice, this, ← List.drop_drop, List.take_append_drop]

theorem batchesFrom_done (authors : List Str) (b fuel i : Nat) (h : ¬ i < authors.length) :
    batchesFrom authors b fuel i = some [] := by
  cases fuel with
  | zero => rw [batchesFrom, if_neg h]
  | succ fuel => rw [batchesFrom, if_neg h]

/-- The batch loop with a positive batch size and enough fuel: it returns, and its batches
are the consecutive slices that make up the list from index `i` on. -/
theorem batchesFrom_spec (authors : List Str) (b : Nat) (hb : 0 < b) :
    ∀ (fuel i : Nat), authors.length ≤ i + fuel →
      ∃ bs, batchesFrom authors b fuel i = some bs ∧
        bs.flatten = authors.drop i ∧
        (∀ j x, bs[j]? = some x → x = slice authors (i + j * b) (i + j * b + b)) ∧
        (∀ x ∈ bs, 0 < x.length ∧ x.length ≤ b) ∧
        (∀ x ∈ bs.dropLast, x.length = b) ∧
        (authors.length ≤ i → bs = []) := by
  intro fuel
  induction fuel with
  | zero =>
    intro i h
    have hd : ¬ i < authors.length := by omega
    refine ⟨[], batchesFrom_done _ _ _ _ hd, ?_, ?_, ?_, ?_, fun _ => rfl⟩
    · simp only [List.flatten_nil]
      exact (List.drop_eq_nil_iff.2 (by omega)).symm
    · intro j x hx; simp at hx
    · intro x hx; simp at hx
    · intro x hx; simp at hx
  | succ fuel ih =>
    intro i h
    by_cases hd : i < authors.length
    · obtain ⟨rest, r1, r2, r3, r4, r5, r6⟩ := ih (i + b) (by omega)
      refine ⟨slice authors i (i + b) :: rest, ?_, ?_, ?_, ?_, ?_, fun hle => by omega⟩
      · rw [batchesFrom, if_pos hd, r1]; rfl
      · rw [List.flatten_cons, r2, slice_append_drop]
      · intro j x hx
        cases j with
        | zero =>
          simp only [List.getElem?_cons_zero, Option.some.injEq] at hx
          simp [← hx]
        | succ j =>
          simp only [List.getElem?_cons_succ] at hx
          have := r3 j x hx
          rw [this]
          have e : i + b + j * b = i + (j + 1) * b := by rw [Nat.succ_mul]; omega
          rw [e]
      · intro x hx
        rcases List.mem_cons.1 hx with rfl | hx
        · rw [slice_length]; omega
        · exact r4 x hx
      · intro x hx
        cases rest with
        | nil => simp at hx
        | cons y ys =>
          rw [List.dropLast_cons₂] at hx
          rcases List.mem_cons.1 hx with rfl | hx
          · have : ¬ authors.length ≤ i + b := fun hle => by
              have := r6 hle
              simp at this
            rw [slice_length]; omega
          · exact r5 x hx
    · refine ⟨[], batchesFrom_done _ _ _ _ hd, ?_, ?_, ?_, ?_, fun _ => rfl⟩
      · simp only [List.flatten_nil]
        exact (List.drop_eq_nil_iff.2 (by omega)).symm
      · intro j x hx; simp at hx
      · intro x hx; simp at hx
      · intro x hx; simp at hx

/-- The batch loop harvests the batches it forms, in turn. -/
theorem batchLoop_eq (src : Source) (cfg : Config) (authors : List Str) :
    ∀ (fuel i : Nat) (h : Harvest),
      batchLoop src cfg authors fuel i h =
        (batchesFrom authors cfg.batchSize fuel i).bind
          (fun bs => harvestBatches src cfg bs h) := by
  intro fuel
  induction fuel with
  | zero =>
    intro i h
    by_cases hd : i < authors.length
    · simp [batchLoop, batchesFrom, hd]
    · simp [batchLoop, batchesFrom, hd, harvestBatches]
  | succ fuel ih =>
    intro i h
    by_cases hd : i < authors.length
    · simp only [batchLoop, batchesFrom, hd, if_true]
      cases hb : batchesFrom authors cfg.batchSize fuel (i + cfg.batchSize) with
      | none =>
        cases harvestAuthors src cfg (slice authors i (i + cfg.batchSize)) h with
        | none => rfl
        | some h1 => simp [ih, hb]
      | some rest =>
        simp only [Option.map_some', Option.some_bind, harvestBatches]
        cases harvestAuthors src cfg (slice authors i (i + cfg.batchSize)) h with
        | none => rfl
        | some h1 => simp [ih, hb]
    · simp [batchLoop, batchesFrom, hd, harvestBatches]

/-- With a positive batch size `run` returns, and it harvests the authors from the start
index on, one after the other. -/
theorem run_eq_harvestAuthors (src : Source) (cfg : Config) (authors : List Str)
    (file : Option (List Str)) (hb : 0 < cfg.batchSize) :
    ∃ r h, run src cfg authors file = some r ∧
      harvestAuthors src cfg (authors.drop cfg.startIndex) ⟨[], [], 0⟩ = some h ∧
      r = ⟨initialFile file ++ h.rows, h.trace, h.count⟩ ∧
      QueryTrace r.trace ∧
      ∀ q ∈ requestsOf r.trace, q.author ∈ authors.drop cfg.startIndex := by
  obtain ⟨bs, b1, b2, _⟩ :=
    batchesFrom_spec authors cfg.batchSize hb authors.length cfg.startIndex (by omega)
  obtain ⟨h, h1, t, h2, h3, h4⟩ :=
    harvestAuthors_spec src cfg (authors.drop cfg.startIndex) ⟨[], [], 0⟩
  have ht : h.trace = t := by simpa using h2
  refine ⟨⟨initialFile file ++ h.rows, h.trace, h.count⟩, h, ?_, h1, rfl, ?_, ?_⟩
  · simp only [run, batchLoop_eq, b1, Option.some_bind, harvestBatches_flatten, b2, h1]
  · rw [ht]; exact h3
  · rw [ht]; exact h4


/-! ### The claims about the pagination and the main loop -/

/-- What the delay of the pagination loop does cover: with a positive batch size `run`
returns, and in its trace every request other than the first request of a query (offset 0)
comes directly after a sleep of `REQUEST_DELAY_MS`, a request being directly followed only
by that sleep or by the first request of the next query; within one call of
`fetchWorksByAuthorYear` two consecutive requests always have that sleep between them. -/
theorem run_delayed_pages (src : Source) (cfg : Config) (authors : List Str)
    (file : Option (List Str)) (hb : 0 < cfg.batchSize) :
    (∃ r, run src cfg authors file = some r ∧ DelayedPages r.trace ∧
      ∀ e ∈ r.trace.head?, e.isFirstPage = true) ∧
    (∀ (a : Str) (y count : Nat),
      ∃ f, fetchWorksByAuthorYear src a y count = some f ∧ Spaced f.trace) := by
  constructor
  · obtain ⟨r, _, h1, _, _, h4, _⟩ := run_eq_harvestAuthors src cfg authors file hb
    exact ⟨r, h1, h4.1, h4.2⟩
  · intro a y count
    obtain ⟨f, h1, _, _, _, _, h6, _⟩ :=
      fetchLoop_spec src a y (MAX_OFFSET / ROWS_PER_REQUEST) 0 [] count (by decide)
    exact ⟨f, h1, h6⟩

/-- The delay of the pagination loop at one author, one year and a source with a second
page. -/
theorem run_delayed_pages_witness :
    0 < scenarioConfig.batchSize ∧
    ((∃ r, run pagedSource scenarioConfig ["Jane Doe".toList] none = some r ∧
        DelayedPages r.trace ∧ ∀ e ∈ r.trace.head?, e.isFirstPage = true) ∧
      (∀ (a : Str) (y count : Nat),
        ∃ f, fetchWorksByAuthorYear pagedSource a y count = some f ∧ Spaced f.trace)) :=
  ⟨by decide, run_delayed_pages pagedSource scenarioConfig ["Jane Doe".toList] none (by decide)⟩

/-- C6: when the first request of a query returns a non-empty page and a total above one
page, and the second request fails (throws, or is not ok), `fetchWorksByAuthorYear` returns
exactly the items of the first page after two requests, and the loop over the years appends
the rows of the first-page items that pass the matcher and goes on with the next year. -/
theorem fetch_second_page_fails (src : Source) (a : Str) (y count : Nat)
    (items : List Work) (total : Nat)
    (h1 : src count ⟨a, y, 0⟩ = .ok (some items) (some total))
    (hne : items ≠ []) (ht : ROWS_PER_REQUEST < total)
    (h2 : src (count + 1) ⟨a, y, ROWS_PER_REQUEST⟩ = .failed ∨
      src (count + 1) ⟨a, y, ROWS_PER_REQUEST⟩ = .notOk) :
    fetchWorksByAuthorYear src a y count =
      some ⟨items,
        [.request ⟨a, y, 0⟩, .sleep REQUEST_DELAY_MS, .request ⟨a, y, ROWS_PER_REQUEST⟩],
        count + 2⟩ ∧
    ∀ (years : List Nat) (h : Harvest), h.count = count →
      harvestYears src a (y :: years) h =
        harvestYears src a years
          ⟨h.rows ++ (items.filter (fun w => isExactAuthorMatch w a)).map
              (fun w => workToCSVRow w a),
            h.trace ++ [.request ⟨a, y, 0⟩, .sleep REQUEST_DELAY_MS,
              .request ⟨a, y, ROWS_PER_REQUEST⟩],
            count + 2⟩ ∧
      ∃ h1 rest, harvestYears src a (y :: years) h = some h1 ∧
        h1.rows = h.rows ++ (items.filter (fun w => isExactAuthorMatch w a)).map
          (fun w => workToCSVRow w a) ++ rest := by
  have hlen : ¬ items.length = 0 := fun h => hne (List.length_eq_zero.1 h)
  have hreach : reachedTotal (0 + ROWS_PER_REQUEST) (some total) = false := by
    simp only [reachedTotal, decide_eq_false_iff_not]; omega
  have hfetch : fetchWorksByAuthorYear src a y count =
      some ⟨items,
        [.request ⟨a, y, 0⟩, .sleep REQUEST_DELAY_MS, .request ⟨a, y, ROWS_PER_REQUEST⟩],
        count + 2⟩ := by
    have e : MAX_OFFSET / ROWS_PER_REQUEST = 98 + 1 + 1 := by decide
    unfold fetchWorksByAuthorYear
    rw [e, fetchLoop_succ _ _ _ _ _ _ _ (by decide), h1]
    simp only [Option.getD_some, hlen, if_false, hreach, Bool.false_eq_true, List.nil_append]
    rw [fetchLoop_succ _ _ _ _ _ _ _ (by decide)]
    rcases h2 with h2 | h2 <;> simp [h2]
  refine ⟨hfetch, fun years h hc => ?_⟩
  have hrows : rowsOf a items = (items.filter (fun w => isExactAuthorMatch w a)).map
      (fun w => workToCSVRow w a) := by
    simp [rowsOf, passesFilter, FILTER_UNIKOM]
  have hstep : harvestYears src a (y :: years) h =
      harvestYears src a years
        ⟨h.rows ++ (items.filter (fun w => isExactAuthorMatch w a)).map
            (fun w => workToCSVRow w a),
          h.trace ++ [.request ⟨a, y, 0⟩, .sleep REQUEST_DELAY_MS,
            .request ⟨a, y, ROWS_PER_REQUEST⟩],
          count + 2⟩ := by
    simp only [harvestYears, hc, hfetch, hrows]
  refine ⟨hstep, ?_⟩
  obtain ⟨h1, e1, e2, _⟩ := harvestYears_spec src a years
    ⟨h.rows ++ (items.filter (fun w => isExactAuthorMatch w a)).map
        (fun w => workToCSVRow w a),
      h.trace ++ [.request ⟨a, y, 0⟩, .sleep REQUEST_DELAY_MS,
        .request ⟨a, y, ROWS_PER_REQUEST⟩],
      count + 2⟩
  exact ⟨h1, _, hstep.trans e1, e2⟩

set_option maxRecDepth 1000000 in
/-- Witness of C6: the first page holds Jane Doe's and John Roe's works out of 150
announced, the request for the second page fails; Jane Doe's row is written. -/
theorem fetch_second_page_fails_witness :
    fetchWorksByAuthorYear failingSource "Jane Doe".toList 2021 0 =
      some ⟨[janeWork, johnWork],
        [.request ⟨"Jane Doe".toList, 2021, 0⟩, .sleep REQUEST_DELAY_MS,
          .request ⟨"Jane Doe".toList, 2021, ROWS_PER_REQUEST⟩], 0 + 2⟩ ∧
    run failingSource scenarioConfig ["Jane Doe".toList] none =
      some ⟨[headerRow, workToCSVRow janeWork "Jane Doe".toList],
        [.request ⟨"Jane Doe".toList, 2021, 0⟩, .sleep REQUEST_DELAY_MS,
          .request ⟨"Jane Doe".toList, 2021, ROWS_PER_REQUEST⟩], 2⟩ :=
  ⟨(fetch_second_page_fails failingSource "Jane Doe".toList 2021 0 [janeWork, johnWork] 150
      (by decide) (by decide) (by decide) (Or.inl (by decide))).1,
    by decide⟩

/-- C7: for a positive batch size the batches of `run` are the consecutive slices
`authors.slice(k + j * b, k + j * b + b)`; in order they make up `authors[k:]`; none is
empty or longer than `b` and all but the last have `b` authors; from a start index at or
past the end there is none; and `run` harvests exactly the authors of `authors[k:]`, one
after the other, and issues requests for no other author. -/
theorem batches_partition (authors : List Str) (cfg : Config) (hb : 0 < cfg.batchSize) :
    (∃ bs, batches authors cfg = some bs ∧
      bs.flatten = authors.drop cfg.startIndex ∧
      (∀ j x, bs[j]? = some x →
        x = slice authors (cfg.startIndex + j * cfg.batchSize)
          (cfg.startIndex + j * cfg.batchSize + cfg.batchSize)) ∧
      (∀ x ∈ bs, 0 < x.length ∧ x.length ≤ cfg.batchSize) ∧
      (∀ x ∈ bs.dropLast, x.length = cfg.batchSize) ∧
      (authors.length ≤ cfg.startIndex → bs = [])) ∧
    (∀ (src : Source) (file : Option (List Str)),
      ∃ r h, run src cfg authors file = some r ∧
        harvestAuthors src cfg (authors.drop cfg.startIndex) ⟨[], [], 0⟩ = some h ∧
        r = ⟨initialFile file ++ h.rows, h.trace, h.count⟩ ∧
        ∀ q ∈ requestsOf r.trace, q.author ∈ authors.drop cfg.startIndex) := by
  constructor
  · exact batchesFrom_spec authors cfg.batchSize hb authors.length cfg.startIndex (by omega)
  · intro src file
    obtain ⟨r, h, h1, h2, h3, _, h5⟩ := run_eq_harvestAuthors src cfg authors file hb
    exact ⟨r, h, h1, h2, h3, h5⟩

/-- Witness of C7: five authors, batches of two, from index 1 on. -/
theorem batches_partition_witness :
    0 < resumeConfig.batchSize ∧
    batches fiveAuthors resumeConfig =
      some [["b".toList, "c".toList], ["d".toList, "e".toList]] ∧
    ∃ bs, batches fiveAuthors resumeConfig = some bs ∧
      bs.flatten = fiveAuthors.drop resumeConfig.startIndex ∧
      ∀ x ∈ bs.dropLast, x.length = resumeConfig.batchSize :=
  ⟨by decide, by decide,
    (batches_partition fiveAuthors resumeConfig (by decide)).1.imp
      (fun _ h => ⟨h.1, h.2.1, h.2.2.2.2.1⟩)⟩

set_option maxRecDepth 1000000 in
/-- C8: the rows that the loop over the years appends for an author are the rows of the
works the source returned that pass `isExactAuthorMatch`, one row each, in the order of
the years and of the pages, nothing removed; a run for one author appends exactly these
rows to the file; in the end-to-end scenario the file holds the header line and the one
row of Jane Doe's work. -/
theorem run_rows_are_matches :
    (∀ (src : Source) (a : Str) (years : List Nat) (h : Harvest),
      ∃ h1, harvestYears src a years h = some h1 ∧
        h1.rows = h.rows ++
          ((fetchedWorks src a years h.count).filter (fun w => isExactAuthorMatch w a)).map
            (fun w => workToCSVRow w a)) ∧
    (∀ (src : Source) (cfg : Config) (a : Str) (file : Option (List Str)),
      0 < cfg.batchSize → cfg.startIndex = 0 →
      ∃ r, run src cfg [a] file = some r ∧
        r.file = initialFile file ++
          ((fetchedWorks src a (yearsOf cfg) 0).filter (fun w => isExactAuthorMatch w a)).map
            (fun w => workToCSVRow w a)) ∧
    fetchedWorks twoWorkSource "Jane Doe".toList (yearsOf scenarioConfig) 0 =
      [janeWork, johnWork] ∧
    run twoWorkSource scenarioConfig ["Jane Doe".toList] none =
      some ⟨[headerRow, workToCSVRow janeWork "Jane Doe".toList],
        [.request ⟨"Jane Doe".toList, 2021, 0⟩], 1⟩ := by
  have hrows : ∀ (a : Str) (ws : List Work), rowsOf a ws =
      (ws.filter (fun w => isExactAuthorMatch w a)).map (fun w => workToCSVRow w a) := by
    intro a ws
    simp [rowsOf, passesFilter, FILTER_UNIKOM]
  refine ⟨fun src a years h => ?_, fun src cfg a file hb hk => ?_, by decide, by decide⟩
  · obtain ⟨h1, e1, e2, _⟩ := harvestYears_spec src a years h
    exact ⟨h1, e1, by rw [e2, hrows]⟩
  · obtain ⟨r, h, r1, r2, r3, _⟩ := run_eq_harvestAuthors src cfg [a] file hb
    obtain ⟨h1, e1, e2, _⟩ := harvestYears_spec src a (yearsOf cfg) ⟨[], [], 0⟩
    have hh : h = h1 := by
      rw [hk, List.drop_zero] at r2
      simp only [harvestAuthors, e1] at r2
      exact (Option.some.inj r2).symm
    refine ⟨r, r1, ?_⟩
    rw [r3, hh, e2, hrows]
    simp

/-! ### CSV -/

theorem escapeQuotes_quote (cs : Str) :
    escapeQuotes ('"' :: cs) = '"' :: '"' :: escapeQuotes cs := by
  simp [escapeQuotes]

theorem escapeQuotes_other {c : Char} (cs : Str) (h : c ≠ '"') :
    escapeQuotes (c :: cs) = c :: escapeQuotes cs := by
  simp [escapeQuotes, h]

theorem escapeQuotes_eq_flatMap (s : Str) :
    escapeQuotes s = s.flatMap (fun c => if c = '"' then ['"', '"'] else [c]) := by
  induction s with
  | nil => rfl
  | cons c cs ih =>
    by_cases h : c = '"'
    · subst h; rw [escapeQuotes_quote, ih]; simp [List.flatMap_cons]
    · rw [escapeQuotes_other cs h, ih]; simp [List.flatMap_cons, h]

theorem undoubleQuotes_escapeQuotes (s : Str) : undoubleQuotes (escapeQuotes s) = s := by
  induction s with
  | nil => rfl
  | cons c cs ih =>
    by_cases h : c = '"'
    · subst h
      rw [escapeQuotes_quote]
      simp [undoubleQuotes, ih]
    · rw [escapeQuotes_other cs h]
      cases he : escapeQuotes cs with
      | nil =>
        rw [he] at ih
        simp only [undoubleQuotes] at ih ⊢
        rw [← ih]
      | cons d ds =>
        rw [he] at ih
        simp [undoubleQuotes, h, ih]

theorem readField_csvSafe (s : Str) : readField (csvSafe (some s)) = some s := by
  simp [readField, csvSafe, undoubleQuotes_escapeQuotes]

theorem splitFieldsAux_nil (b : Bool) (cur : Str) :
    splitFieldsAux b cur [] = [cur.reverse] := by
  simp [splitFieldsAux]

theorem splitFieldsAux_quote (b : Bool) (cur cs : Str) :
    splitFieldsAux b cur ('"' :: cs) = splitFieldsAux (!b) ('"' :: cur) cs := by
  simp [splitFieldsAux]

theorem splitFieldsAux_comma (cur cs : Str) :
    splitFieldsAux false cur (',' :: cs) = cur.reverse :: splitFieldsAux false [] cs := by
  have hq : ((',' : Char) == '"') = false := by decide
  simp [splitFieldsAux, hq]

theorem splitFieldsAux_inside {c : Char} (cur cs : Str) (h : c ≠ '"') :
    splitFieldsAux true cur (c :: cs) = splitFieldsAux true (c :: cur) cs := by
  simp [splitFieldsAux, h]

theorem splitFieldsAux_quoted (rest : Str) : ∀ (s cur : Str),
    splitFieldsAux true cur (escapeQuotes s ++ '"' :: rest) =
      splitFieldsAux false ('"' :: ((escapeQuotes s).reverse ++ cur)) rest := by
  intro s
  induction s with
  | nil =>
    intro cur
    rw [escapeQuotes, List.nil_append, splitFieldsAux_quote]
    rfl
  | cons c cs ih =>
    intro cur
    by_cases h : c = '"'
    · subst h
      rw [escapeQuotes_quote, List.cons_append, List.cons_append, splitFieldsAux_quote,
        splitFieldsAux_quote, Bool.not_true, Bool.not_false, ih]
      simp
    · rw [escapeQuotes_other cs h, List.cons_append, splitFieldsAux_inside _ _ h, ih]
      simp

theorem splitFieldsAux_csvSafe (s cur rest : Str) :
    splitFieldsAux false cur (csvSafe (some s) ++ rest) =
      splitFieldsAux false ((csvSafe (some s)).reverse ++ cur) rest := by
  have e : csvSafe (some s) ++ rest = '"' :: (escapeQuotes s ++ '"' :: rest) := by
    simp [csvSafe]
  rw [e, splitFieldsAux_quote, Bool.not_false, splitFieldsAux_quoted]
  simp [csvSafe]

/-- Splitting a record of quoted values gives the quoted values back. -/
theorem splitFields_join (v : Str) (vs : List Str) :
    splitFields (join ",".toList ((v :: vs).map (fun x => csvSafe (some x)))) =
      (v :: vs).map (fun x => csvSafe (some x)) := by
  unfold splitFields join
  induction vs generalizing v with
  | nil =>
    have := splitFieldsAux_csvSafe v [] []
    rw [List.append_nil, List.append_nil, splitFieldsAux_nil, List.reverse_reverse] at this
    simpa [List.intercalate] using this
  | cons w ws ih =>
    have e : ",".toList.intercalate ((v :: w :: ws).map (fun x => csvSafe (some x))) =
        csvSafe (some v) ++ (',' :: ",".toList.intercalate
          ((w :: ws).map (fun x => csvSafe (some x)))) := by
      simp [List.intercalate, List.intersperse]
    rw [e, splitFieldsAux_csvSafe, List.append_nil, splitFieldsAux_comma,
      List.reverse_reverse, ih w]
    simp

theorem rowValues_length (w : Work) (a : Str) : (rowValues w a).length = 22 := rfl

/-- C10: `csvSafe` of a string is the string with each double quote doubled, inside one
pair of double quotes; reading the field by the CSV rule gives the string back, so
`csvSafe` is injective on strings; and a row of `workToCSVRow` splits into 22 fields, as
many as there are headers, which read back as the 22 values of the row. -/
theorem csvSafe_roundtrip :
    (∀ s : Str, csvSafe (some s) =
      '"' :: (s.flatMap (fun c => if c = '"' then ['"', '"'] else [c]) ++ ['"'])) ∧
    (∀ s : Str, readField (csvSafe (some s)) = some s) ∧
    Function.Injective (fun s : Str => csvSafe (some s)) ∧
    (∀ (w : Work) (a : Str),
      (splitFields (workToCSVRow w a)).length = 22 ∧
      (splitFields (workToCSVRow w a)).map readField = (rowValues w a).map some) ∧
    headers.length = 22 ∧ (splitFields headerRow).length = 22 := by
  refine ⟨fun s => ?_, readField_csvSafe, ?_, fun w a => ?_, rfl, ?_⟩
  · rw [csvSafe, escapeQuotes_eq_flatMap]
  · intro s t h
    have := congrArg readField h
    simpa [readField_csvSafe] using this
  · have hv : ∃ v vs, rowValues w a = v :: vs := ⟨_, _, rfl⟩
    obtain ⟨v, vs, hv⟩ := hv
    have hl := rowValues_length w a
    unfold workToCSVRow
    rw [hv] at hl ⊢
    rw [splitFields_join]
    refine ⟨by simpa using hl, ?_⟩
    rw [List.map_map]
    apply List.map_congr_left
    intro x _
    exact readField_csvSafe x
  · unfold headerRow headers
    rw [splitFields_join]
    rfl

end Crossref

namespace OpenAlex

theorem matchAtoms_split : ∀ (t n s : Str), matchAtoms t n = some s → s <:+ n ∧ (t ≠ [] → s.length < n.length) := by
  intro t
  induction t with
  | nil =>
    intro n s h
    simp only [matchAtoms, Option.some.injEq] at h
    subst h
    exact ⟨List.suffix_refl _, fun hne => absurd rfl hne⟩
  | cons p ps ih =>
    intro n s h
    cases n with
    | nil => simp [matchAtoms] at h
    | cons c cs =>
      by_cases hm : atomMatches p c = true
      · simp only [matchAtoms, hm, if_true] at h
        obtain ⟨h1, _⟩ := ih cs s h
        refine ⟨h1.trans (List.suffix_cons c cs), fun _ => ?_⟩
        have := h1.length_le
        simp only [List.length_cons]
        omega
      · simp [matchAtoms, hm] at h

theorem matchAtoms_append : ∀ (t n s b : Str), matchAtoms t n = some s →
    matchAtoms t (n ++ b) = some (s ++ b) := by
  intro t
  induction t with
  | nil =>
    intro n s b h
    simp only [matchAtoms, Option.some.injEq] at h
    subst h
    simp [matchAtoms]
  | cons p ps ih =>
    intro n s b h
    cases n with
    | nil => simp [matchAtoms] at h
    | cons c cs =>
      by_cases hm : atomMatches p c = true
      · simp only [matchAtoms, hm, if_true] at h
        simp only [List.cons_append, matchAtoms, hm, if_true]
        exact ih cs s b h
      · simp [matchAtoms, hm] at h

theorem stripPrefixToken_some {t n m : Str} (h : stripPrefixToken t n = some m) :
    ∃ c rest, matchAtoms t n = some (c :: rest) ∧ isSpace c = true ∧
      m = rest.dropWhile isSpace := by
  unfold stripPrefixToken at h
  split at h
  · next c rest heq =>
    by_cases hc : isSpace c = true
    · simp only [hc, if_true, Option.some.injEq] at h
      exact ⟨c, rest, heq, hc, h.symm⟩
    · simp [hc] at h
  · simp at h

theorem stripSuffixToken_some {t n m : Str} (h : stripSuffixToken t n = some m) :
    ∃ c rest, matchAtoms t.reverse n.reverse = some (c :: rest) ∧
      (isSpace c || c == ',') = true ∧
      m = (rest.dropWhile (fun d => isSpace d || d == ',')).reverse := by
  unfold stripSuffixToken at h
  split at h
  · next c rest heq =>
    by_cases hc : (isSpace c || c == ',') = true
    · simp only [hc, if_true, Option.some.injEq] at h
      exact ⟨c, rest, heq, hc, h.symm⟩
    · simp [hc] at h
  · simp at h

theorem stripPrefixToken_spec {t n m : Str} (h : stripPrefixToken t n = some m) :
    m <:+ n ∧ m.length < n.length ∧ ∀ c ∈ m.head?, isSpace c = false := by
  obtain ⟨c, rest, hm, _, rfl⟩ := stripPrefixToken_some h
  obtain ⟨h1, _⟩ := matchAtoms_split t n _ hm
  have h2 : List.dropWhile isSpace rest <:+ c :: rest :=
    (List.dropWhile_suffix _).trans (List.suffix_cons c rest)
  refine ⟨h2.trans h1, ?_, head?_dropWhile_false _ _⟩
  have := h2.length_le
  have := h1.length_le
  have := (List.dropWhile_suffix isSpace (l := rest)).length_le
  simp only [List.length_cons] at *
  omega

theorem stripSuffixToken_spec {t n m : Str} (h : stripSuffixToken t n = some m) :
    m.reverse <:+ n.reverse ∧ m.length < n.length ∧
      ∀ c ∈ m.reverse.head?, isSpace c = false := by
  obtain ⟨c, rest, hm, _, rfl⟩ := stripSuffixToken_some h
  obtain ⟨h1, _⟩ := matchAtoms_split _ _ _ hm
  have h2 : List.dropWhile (fun d => isSpace d || d == ',') rest <:+ c :: rest :=
    (List.dropWhile_suffix _).trans (List.suffix_cons c rest)
  rw [List.reverse_reverse]
  refine ⟨h2.trans h1, ?_, ?_⟩
  · have := (List.dropWhile_suffix (fun d => isSpace d || d == ',') (l := rest)).length_le
    have := h1.length_le
    simp only [List.length_cons, List.length_reverse] at *
    omega
  · intro d hd
    have := head?_dropWhile_false (fun d => isSpace d || d == ',') rest d hd
    simp only [Bool.or_eq_false_iff] at this
    exact this.1

theorem stripPrefixToken_mono {t m k b : Str} (h : stripPrefixToken t m = some k) :
    ∃ k2, stripPrefixToken t (m ++ b) = some k2 := by
  obtain ⟨c, rest, hm, hc, _⟩ := stripPrefixToken_some h
  have := matchAtoms_append t m _ b hm
  refine ⟨(rest ++ b).dropWhile isSpace, ?_⟩
  unfold stripPrefixToken
  rw [this]
  simp [hc]

/-! ### One pass and the loop around it -/

section Loop

variable (strip : Str → Str → Option Str)

theorem stripPass_eq (titles : List Str) (n : Str) :
    stripPass strip titles n = titles.foldl (passStep strip) (n, false) := rfl

theorem fold_inv (P : Str → Prop) (hP : ∀ t n m, P n → strip t n = some m → P m) :
    ∀ (titles : List Str) (st : Str × Bool), P st.1 →
      P (titles.foldl (passStep strip) st).1 := by
  intro titles
  induction titles with
  | nil => intro st h; exact h
  | cons t ts ih =>
    intro st h
    rw [List.foldl_cons]
    apply ih
    unfold passStep
    cases hs : strip t st.1 with
    | none => exact h
    | some m => exact hP t st.1 m h hs

theorem fold_false : ∀ (titles : List Str) (st : Str × Bool),
    (titles.foldl (passStep strip) st).2 = false →
      titles.foldl (passStep strip) st = st ∧ ∀ t ∈ titles, strip t st.1 = none := by
  intro titles
  induction titles with
  | nil => intro st _; simp
  | cons t ts ih =>
    intro st h
    rw [List.foldl_cons] at h ⊢
    obtain ⟨h1, h2⟩ := ih _ h
    cases hs : strip t st.1 with
    | none =>
      have hst : passStep strip st t = st := by simp [passStep, hs]
      rw [hst] at h1 h2 ⊢
      refine ⟨h1, ?_⟩
      intro u hu
      rcases List.mem_cons.1 hu with rfl | hu
      · exact hs
      · exact h2 u hu
    | some m =>
      have hst : passStep strip st t = (m, true) := by simp [passStep, hs]
      rw [h1, hst] at h
      simp at h

theorem fold_none : ∀ (titles : List Str) (st : Str × Bool),
    (∀ t ∈ titles, strip t st.1 = none) → titles.foldl (passStep strip) st = st := by
  intro titles
  induction titles with
  | nil => intro st _; rfl
  | cons t ts ih =>
    intro st h
    have hst : passStep strip st t = st := by
      simp [passStep, h t (List.mem_cons_self _ _)]
    rw [List.foldl_cons, hst]
    exact ih st (fun u hu => h u (List.mem_cons_of_mem _ hu))

theorem fold_length (hlen : ∀ t n m, strip t n = some m → m.length < n.length) :
    ∀ (titles : List Str) (st : Str × Bool),
      (titles.foldl (passStep strip) st).1.length ≤ st.1.length ∧
      ((titles.foldl (passStep strip) st).2 = true →
        st.2 = true ∨ (titles.foldl (passStep strip) st).1.length < st.1.length) := by
  intro titles
  induction titles with
  | nil => intro st; exact ⟨le_refl _, fun h => Or.inl h⟩
  | cons t ts ih =>
    intro st
    rw [List.foldl_cons]
    obtain ⟨h1, h2⟩ := ih (passStep strip st t)
    cases hs : strip t st.1 with
    | none =>
      have hst : passStep strip st t = st := by simp [passStep, hs]
      rw [hst] at h1 h2 ⊢
      exact ⟨h1, h2⟩
    | some m =>
      have hst : passStep strip st t = (m, true) := by simp [passStep, hs]
      have hl := hlen t st.1 m hs
      rw [hst] at h1 h2 ⊢
      simp only at h1
      exact ⟨by omega, fun _ => Or.inr (by omega)⟩

theorem stripLoop_total (hlen : ∀ t n m, strip t n = some m → m.length < n.length)
    (titles : List Str) : ∀ (fuel : Nat) (n : Str), n.length < fuel →
      ∃ m, stripLoop strip titles fuel n = some m := by
  intro fuel
  induction fuel with
  | zero => intro n h; omega
  | succ fuel ih =>
    intro n h
    obtain ⟨h1, h2⟩ := fold_length strip hlen titles (n, false)
    rw [← stripPass_eq] at h1 h2
    unfold stripLoop
    rcases hp : stripPass strip titles n with ⟨m, b⟩
    rw [hp] at h1 h2
    cases b with
    | false => exact ⟨m, rfl⟩
    | true =>
      simp only
      apply ih
      rcases h2 rfl with h3 | h3
      · simp at h3
      · simp only at h3; omega

theorem stripLoop_inv (P : Str → Prop) (hP : ∀ t n m, P n → strip t n = some m → P m)
    (titles : List Str) : ∀ (fuel : Nat) (n m : Str), P n →
      stripLoop strip titles fuel n = some m → P m := by
  intro fuel
  induction fuel with
  | zero => intro n m _ h; simp [stripLoop] at h
  | succ fuel ih =>
    intro n m hn h
    have hi := fold_inv strip P hP titles (n, false) hn
    rw [← stripPass_eq] at hi
    unfold stripLoop at h
    rcases hp : stripPass strip titles n with ⟨k, b⟩
    rw [hp] at h hi
    cases b with
    | false =>
      simp only [Option.some.injEq] at h
      exact h ▸ hi
    | true => exact ih k m hi h

theorem stripLoop_fixed (titles : List Str) : ∀ (fuel : Nat) (n m : Str),
    stripLoop strip titles fuel n = some m → ∀ t ∈ titles, strip t m = none := by
  intro fuel
  induction fuel with
  | zero => intro n m h; simp [stripLoop] at h
  | succ fuel ih =>
    intro n m h
    unfold stripLoop at h
    rcases hp : stripPass strip titles n with ⟨k, b⟩
    rw [hp] at h
    cases b with
    | false =>
      simp only [Option.some.injEq] at h
      subst h
      have hf := fold_false strip titles (n, false) (by rw [← stripPass_eq, hp])
      rw [← stripPass_eq, hp] at hf
      have hk : k = n := by simpa using congrArg Prod.fst hf.1
      rw [hk]
      exact hf.2
    | true => exact ih k m h

theorem stripLoop_of_none (titles : List Str) (fuel : Nat) (n : Str)
    (h : ∀ t ∈ titles, strip t n = none) : stripLoop strip titles (fuel + 1) n = some n := by
  have := fold_none strip titles (n, false) h
  rw [← stripPass_eq] at this
  unfold stripLoop
  rw [this]

end Loop

theorem lowerNoComma_chars (x : Str) : LowerNoComma (lowerNoComma x) := by
  intro c hc
  simp only [lowerNoComma, toLowerCase, List.map_map, List.mem_map, Function.comp] at hc
  obtain ⟨d, _, rfl⟩ := hc
  by_cases hd : d.toLower = ','
  · simp [hd]
  · simp only [beq_iff_eq, hd, if_false]
    exact ⟨char_toLower_idem d, hd⟩

theorem lowerNoComma_fix {n : Str} (h : LowerNoComma n) : lowerNoComma n = n := by
  unfold lowerNoComma toLowerCase
  rw [List.map_map]
  conv_rhs => rw [← List.map_id n]
  apply List.map_congr_left
  intro c hc
  obtain ⟨h1, h2⟩ := h c hc
  simp [h1, h2]

theorem stripPrefixToken_length (t n m : Str) (h : stripPrefixToken t n = some m) :
    m.length < n.length := (stripPrefixToken_spec h).2.1

theorem stripSuffixToken_length (t n m : Str) (h : stripSuffixToken t n = some m) :
    m.length < n.length := (stripSuffixToken_spec h).2.1

theorem normalizeName_eq (x n1 n2 : Str)
    (h1 : stripLoop stripPrefixToken TITLE_PREFIX ((lowerNoComma x).length + 1)
      (lowerNoComma x) = some n1)
    (h2 : stripLoop stripSuffixToken TITLE_SUFFIX (n1.length + 1) n1 = some n2) :
    normalizeName x = some (trim (collapseSpaces n2)) := by
  unfold normalizeName
  simp only [h1, h2]

theorem normalizeName_total (x : Str) : ∃ r, normalizeName x = some r := by
  obtain ⟨n1, h1⟩ := stripLoop_total stripPrefixToken stripPrefixToken_length TITLE_PREFIX
    ((lowerNoComma x).length + 1) (lowerNoComma x) (Nat.lt_succ_self _)
  obtain ⟨n2, h2⟩ := stripLoop_total stripSuffixToken stripSuffixToken_length TITLE_SUFFIX
    (n1.length + 1) n1 (Nat.lt_succ_self _)
  exact ⟨trim (collapseSpaces n2), normalizeName_eq x n1 n2 h1 h2⟩

theorem normalizeName_of_fixed {n : Str} (hl : LowerNoComma n) (ht : Tidy n)
    (hp : ∀ t ∈ TITLE_PREFIX, stripPrefixToken t n = none)
    (hs : ∀ t ∈ TITLE_SUFFIX, stripSuffixToken t n = none) : normalizeName n = some n := by
  have h1 := stripLoop_of_none stripPrefixToken TITLE_PREFIX n.length n hp
  have h2 := stripLoop_of_none stripSuffixToken TITLE_SUFFIX n.length n hs
  have := normalizeName_eq n n n (by rw [lowerNoComma_fix hl]; exact h1) h2
  rw [this, tidy_fix ht]

/-- C1, amended: on every name that, once lower-cased and with its commas read as spaces,
is left unchanged by the final white-space clean-up (no white space at either end, every
white-space run a single space character), `normalizeName` returns a result, and applying
it to that result returns the same result. -/
theorem normalizeName_idempotent (x : Str)
    (hx : trim (collapseSpaces (lowerNoComma x)) = lowerNoComma x) :
    ∃ r, normalizeName x = some r ∧ normalizeName r = some r := by
  have h : Tidy (lowerNoComma x) := (tidy_iff _).1 hx
  obtain ⟨n1, h1⟩ := stripLoop_total stripPrefixToken stripPrefixToken_length TITLE_PREFIX
    ((lowerNoComma x).length + 1) (lowerNoComma x) (Nat.lt_succ_self _)
  obtain ⟨n2, h2⟩ := stripLoop_total stripSuffixToken stripSuffixToken_length TITLE_SUFFIX
    (n1.length + 1) n1 (Nat.lt_succ_self _)
  -- the prefix loop
  have t1 : Tidy n1 := stripLoop_inv stripPrefixToken Tidy
    (fun t n m hn hm => tidy_suffix hn (stripPrefixToken_spec hm).1 (stripPrefixToken_spec hm).2.2)
    TITLE_PREFIX _ _ _ h h1
  have c1 : LowerNoComma n1 := stripLoop_inv stripPrefixToken LowerNoComma
    (fun t n m hn hm c hc => hn c ((stripPrefixToken_spec hm).1.subset hc))
    TITLE_PREFIX _ _ _ (lowerNoComma_chars x) h1
  have f1 := stripLoop_fixed stripPrefixToken TITLE_PREFIX _ _ _ h1
  -- the suffix loop
  have t2 : Tidy n2 := stripLoop_inv stripSuffixToken Tidy
    (fun t n m hn hm => by
      have := tidy_reverse (tidy_suffix (tidy_reverse hn) (stripSuffixToken_spec hm).1
        (stripSuffixToken_spec hm).2.2)
      rwa [List.reverse_reverse] at this)
    TITLE_SUFFIX _ _ _ t1 h2
  have c2 : LowerNoComma n2 := stripLoop_inv stripSuffixToken LowerNoComma
    (fun t n m hn hm c hc => hn c (by
      have := (stripSuffixToken_spec hm).1.subset (List.mem_reverse.2 hc)
      exact List.mem_reverse.1 this))
    TITLE_SUFFIX _ _ _ c1 h2
  have p2 : ∀ t ∈ TITLE_PREFIX, stripPrefixToken t n2 = none :=
    stripLoop_inv stripSuffixToken (fun n => ∀ t ∈ TITLE_PREFIX, stripPrefixToken t n = none)
      (fun u n m hn hm t ht => by
        have hpre : m <+: n := by
          have := (stripSuffixToken_spec hm).1
          rwa [List.reverse_suffix] at this
        obtain ⟨b, rfl⟩ := hpre
        cases hk : stripPrefixToken t m with
        | none => rfl
        | some k =>
          obtain ⟨k2, hk2⟩ := stripPrefixToken_mono (b := b) hk
          rw [hn t ht] at hk2
          simp at hk2)
      TITLE_SUFFIX _ _ _ f1 h2
  have f2 := stripLoop_fixed stripSuffixToken TITLE_SUFFIX _ _ _ h2
  refine ⟨n2, ?_, normalizeName_of_fixed c2 t2 p2 f2⟩
  rw [normalizeName_eq x n1 n2 h1 h2, tidy_fix t2]

/-- Witness of C1 amended: a name with two stacked prefixes and a degree. -/
theorem normalizeName_idempotent_witness :
    trim (collapseSpaces (lowerNoComma "Dr. Ir. Budi Santoso M.Kom".toList)) =
      lowerNoComma "Dr. Ir. Budi Santoso M.Kom".toList ∧
    ∃ r, normalizeName "Dr. Ir. Budi Santoso M.Kom".toList = some r ∧
      normalizeName r = some r :=
  ⟨by decide, normalizeName_idempotent _ (by decide)⟩

/-- C9: `normalizeName("Prof. Dr. Jane Doe, S.T")` is `"jane doe"`: both prefixes and the
degree are stripped, and no comma, doubled space or outer white space is left. -/
theorem normalizeName_prof_dr_jane_doe :
    normalizeName "Prof. Dr. Jane Doe, S.T".toList = some "jane doe".toList := by
  decide

/-- C1, as stated, fails: with white space before a title or after a degree, or with two
spaces or a line feed inside a spaced-out degree, the second application strips what the
first one left. -/
theorem normalizeName_not_idempotent :
    (normalizeName " dr budi".toList = some "dr budi".toList ∧
      normalizeName "dr budi".toList = some "budi".toList) ∧
    (normalizeName "budi st ".toList = some "budi st".toList ∧
      normalizeName "budi st".toList = some "budi".toList) ∧
    (normalizeName "budi s  t".toList = some "budi s t".toList ∧
      normalizeName "budi s t".toList = some "budi".toList) ∧
    (normalizeName "budi s\nt".toList = some "budi s t".toList ∧
      normalizeName "budi s t".toList = some "budi".toList) := by
  decide

/-! ### Names that only resemble a title -/

/-- When no title pattern matches the lower-cased name, `normalizeName` only cleans up the
white space. -/
theorem normalizeName_of_no_match (x : Str)
    (hp : ∀ t ∈ TITLE_PREFIX, stripPrefixToken t (lowerNoComma x) = none)
    (hs : ∀ t ∈ TITLE_SUFFIX, stripSuffixToken t (lowerNoComma x) = none) :
    normalizeName x = some (trim (collapseSpaces (lowerNoComma x))) :=
  normalizeName_eq x _ _
    (stripLoop_of_none stripPrefixToken TITLE_PREFIX _ _ hp)
    (stripLoop_of_none stripSuffixToken TITLE_SUFFIX _ _ hs)

/-- C11, on the inputs the claim names: "he", "ira" and "sat" are not entries of the title
lists, yet the dot of the entries "h.", "ir." and "s.t" is read as any character, so
`normalizeName` returns "wang", "wati" and "budi" where the claim expects "he wang",
"ira wati" and "budi sat". -/
theorem normalizeName_strips_name_words :
    ("he".toList ∉ TITLE_PREFIX ∧ "wang".toList ∉ TITLE_SUFFIX ∧
      trim (collapseSpaces (lowerNoComma "He Wang".toList)) = "he wang".toList ∧
      stripPrefixToken "h.".toList "he wang".toList = some "wang".toList ∧
      normalizeName "He Wang".toList = some "wang".toList) ∧
    ("ira".toList ∉ TITLE_PREFIX ∧ "wati".toList ∉ TITLE_SUFFIX ∧
      trim (collapseSpaces (lowerNoComma "Ira Wati".toList)) = "ira wati".toList ∧
      stripPrefixToken "ir.".toList "ira wati".toList = some "wati".toList ∧
      normalizeName "Ira Wati".toList = some "wati".toList) ∧
    ("budi".toList ∉ TITLE_PREFIX ∧ "sat".toList ∉ TITLE_SUFFIX ∧
      trim (collapseSpaces (lowerNoComma "Budi Sat".toList)) = "budi sat".toList ∧
      stripSuffixToken "s.t".toList "budi sat".toList = some "budi".toList ∧
      normalizeName "Budi Sat".toList = some "budi".toList) := by
  decide

/-! ### The rows of the author matcher -/

theorem splitCommas_ne_nil : ∀ s : Str, splitCommas s ≠ [] := by
  intro s
  cases s with
  | nil => simp [splitCommas]
  | cons c cs =>
    by_cases hc : c = ','
    · simp [splitCommas, hc]
    · cases h : splitCommas cs <;> simp [splitCommas, hc, h]

/-- A stretch without a comma stays in the first column. -/
theorem splitCommas_append : ∀ (a rest : Str), ',' ∉ a →
    splitCommas (a ++ rest) =
      (a ++ (splitCommas rest).headD []) :: (splitCommas rest).tail := by
  intro a
  induction a with
  | nil =>
    intro rest _
    cases h : splitCommas rest with
    | nil => exact absurd h (splitCommas_ne_nil rest)
    | cons f fs => simp [h]
  | cons c cs ih =>
    intro rest hc
    have hne : c ≠ ',' := fun h => hc (by simp [h])
    have hcs : ',' ∉ cs := fun h => hc (List.mem_cons_of_mem _ h)
    have step : splitCommas (c :: (cs ++ rest)) =
        match splitCommas (cs ++ rest) with
        | [] => [[c]]
        | f :: fs => (c :: f) :: fs := by
      simp [splitCommas, hne]
    rw [List.cons_append, step, ih rest hcs]
    rfl

theorem splitCommas_piece (a rest : Str) (h : ',' ∉ a) :
    splitCommas (a ++ (",".toList ++ rest)) = a :: splitCommas rest := by
  have e : ",".toList ++ rest = ',' :: rest := rfl
  have e2 : splitCommas (',' :: rest) = [] :: splitCommas rest := by simp [splitCommas]
  rw [e, splitCommas_append a _ h, e2]
  simp

theorem splitCommas_single (a : Str) (h : ',' ∉ a) : splitCommas a = [a] := by
  have := splitCommas_append a [] h
  simpa [splitCommas] using this

/-- Splitting pieces without commas that were joined by commas gives the pieces back. -/
theorem splitCommas_join (p : Str) (ps : List Str) (h : ∀ q ∈ p :: ps, ',' ∉ q) :
    splitCommas (Crossref.join ",".toList (p :: ps)) = p :: ps := by
  unfold Crossref.join
  induction ps generalizing p with
  | nil =>
    simpa [List.intercalate] using splitCommas_single p (h p (List.mem_cons_self _ _))
  | cons q qs ih =>
    have e : ",".toList.intercalate (p :: q :: qs) =
        p ++ (",".toList ++ ",".toList.intercalate (q :: qs)) := by
      simp [List.intercalate, List.intersperse]
    rw [e, splitCommas_piece _ _ (h p (List.mem_cons_self _ _)),
      ih q (fun r hr => h r (List.mem_cons_of_mem _ hr))]

theorem matchedRow_eq_join (d : Dosen) (c : Candidate) :
    matchedRow d c = Crossref.join ",".toList (matchedPieces d c) := by
  simp [matchedRow, matchedPieces, Crossref.join, List.intercalate, List.intersperse]

/-- The row of a subject without a candidate, for any search. -/
theorem rowFor_not_found (search : Search) (k : Nat) (d : Dosen)
    (h : ∀ n, search k n = .failed ∨ search k n = .ok none ∨ search k n = .ok (some [])) :
    rowFor search k d = some (notFoundRow d) := by
  obtain ⟨r, hr⟩ := normalizeName_total d.nama
  unfold rowFor
  rw [hr]
  rcases h r with h1 | h1 | h1 <;> simp [h1]

set_option maxRecDepth 1000000 in
/-- C12, on a subject without a candidate: the header has 10 columns, but the row added
when nothing was found (the search answers with no result, or fails) has 9 columns and
carries the name, not the id, in the first one; the row added for a match has 10 columns
with the id first and the name second (its values holding no comma). -/
theorem run_not_found_row :
    (splitCommas header).length = 10 ∧
    (∀ d : Dosen, ',' ∉ d.nama →
      (splitCommas (notFoundRow d)).length = 9 ∧
      (splitCommas (notFoundRow d)).head? = some (quoted d.nama)) ∧
    (∀ (search : Search) (k : Nat) (d : Dosen),
      (∀ n, search k n = .failed ∨ search k n = .ok none ∨ search k n = .ok (some [])) →
      rowFor search k d = some (notFoundRow d)) ∧
    (∀ (d : Dosen) (c : Candidate), (∀ q ∈ matchedPieces d c, ',' ∉ q) →
      (splitCommas (matchedRow d c)).length = 10 ∧
      (splitCommas (matchedRow d c)).take 2 = [quoted d.id_author, quoted d.nama]) ∧
    run emptySearch [janeDoe] =
      some [header, quoted "Jane Doe".toList ++ ",,,,,,,,".toList] ∧
    run failingSearch [janeDoe] =
      some [header, quoted "Jane Doe".toList ++ ",,,,,,,,".toList] ∧
    (splitCommas (quoted "Jane Doe".toList ++ ",,,,,,,,".toList)).length = 9 ∧
    (run oneCandidateSearch [janeDoe]).map
        (fun ls => ls.map (fun l => ((splitCommas l).length, (splitCommas l).take 2))) =
      some [(10, ["id_author".toList, "nama".toList]),
        (10, [quoted "A1".toList, quoted "Jane Doe".toList])] := by
  refine ⟨by decide, fun d hd => ?_, rowFor_not_found, fun d c hc => ?_, by decide,
    by decide, by decide, by decide⟩
  swap
  · have hp : ∃ p ps, matchedPieces d c = p :: ps := ⟨_, _, rfl⟩
    obtain ⟨p, ps, hp⟩ := hp
    have hsplit : splitCommas (matchedRow d c) = matchedPieces d c := by
      rw [matchedRow_eq_join, hp, splitCommas_join p ps (hp ▸ hc)]
    rw [hsplit]
    exact ⟨rfl, rfl⟩
  have hq : ',' ∉ quoted d.nama := by
    simp only [quoted, List.mem_cons, List.mem_append, List.mem_singleton, not_or]
    exact ⟨by decide, hd, by decide⟩
  have h8 : splitCommas ",,,,,,,,".toList = [[], [], [], [], [], [], [], [], []] := by decide
  unfold notFoundRow
  rw [splitCommas_append _ _ hq, h8]
  simp

end OpenAlex
